import Mathlib

/-!
# Library_CSV: the single-line CSV record parser of package `csv`

A shallow embedding of `src/csv/csv.go`, and of its copy in `src/main.go`, and theorems
about them.

Modelling conventions.

* A Go `string` is modelled by the sequence of runes that `for _, ch := range s`
  yields (`GoString := List Char`).  Every loop of the source walks its input
  with `range`, and every field is built with `strings.Builder.WriteRune`, so
  the functions below are exact on rune sequences.  For text that is valid
  UTF-8 the rune sequence is the string itself; on other bytes `range` yields
  U+FFFD and the model describes the sequence after that substitution.
* Where a statement compares the text of a field with text of the input, the
  strings are kept as bytes (`GoBytes`), with `range` as the UTF-8 decoder
  (`runes`) and `WriteRune` as the encoder (`encodeRune`); `parseFieldsBytes`
  is `parseFields` on bytes, and `parseFieldsBytes_eq` ties the two layers.
* `bufio.Scanner` is an external collaborator.  One call of `ReadLine` builds a
  scanner and calls `Scan` once; the three things that call can report are the
  constructors of `ScanOutcome`.
* `*StructCSVParser` methods mutate their receiver; here they take the state
  and return the new state next to the Go return values.
* A Go `error` result is `Option Error` (`none` is `nil`).
* Slice indexing can panic in Go; `GetField` returns `Option`, where `none`
  would be the index-out-of-range panic.
-/

namespace csv

/-- A Go string, seen as the runes `range` yields. -/
abbrev GoString := List Char

/-- The quote rune, written `'"'` in the source. -/
def quoteRune : Char := Char.ofNat 34

/-- The comma rune, written `','` in the source. -/
def commaRune : Char := Char.ofNat 44

/-- Error values: the two package-level sentinels of `csv.go` (lines 11-14) and
whatever non-nil error `scanner.Err()` may hand back. -/
inductive Error where
  | ErrQuote
  | ErrFieldCount
  | scanner (text : String)
  deriving DecidableEq, Repr

/-- The method `Error()` of an error value: the text given to `errors.New` for the two
sentinels (csv.go lines 12-13). -/
def Error.Error : Error → String
  | .ErrQuote => "excess or missing \" in quoted-field"
  | .ErrFieldCount => "wrong number of fields"
  | .scanner text => text

/-- What `scanner.Scan()` reports on the single call `ReadLine` makes. -/
inductive ScanOutcome where
  /-- Case `Scan()` returned true and `Text()` is `line`. -/
  | token (line : GoString)
  /-- Case `Scan()` returned false and `Err()` is the non-nil `err`. -/
  | failed (err : Error)
  /-- Case `Scan()` returned false and `Err()` is nil: end of input. -/
  | eof
  deriving DecidableEq, Repr

/-- The struct `StructCSVParser` (csv.go lines 24-27). -/
structure StructCSVParser where
  currentLine : GoString
  fields : List GoString
  deriving DecidableEq, Repr

/-- The zero value of `StructCSVParser`: empty string, nil slice. -/
def StructCSVParser.zero : StructCSVParser := ⟨[], []⟩

/-- Go's `unicode.IsSpace` (standard library): the Latin-1 switch, then the
`White_Space` range table. -/
def isSpace (r : Char) : Bool :=
  if r.toNat ≤ 0xFF then
    r.toNat = 0x09 || r.toNat = 0x0A || r.toNat = 0x0B || r.toNat = 0x0C ||
      r.toNat = 0x0D || r.toNat = 0x20 || r.toNat = 0x85 || r.toNat = 0xA0
  else
    r.toNat = 0x1680 || (0x2000 ≤ r.toNat && r.toNat ≤ 0x200A) ||
      r.toNat = 0x2028 || r.toNat = 0x2029 || r.toNat = 0x202F ||
      r.toNat = 0x205F || r.toNat = 0x3000

/-- Go's `strings.TrimSpace` (standard library): strip leading, then trailing,
runes for which `unicode.IsSpace` holds. -/
def TrimSpace (s : GoString) : GoString :=
  (s.dropWhile isSpace).rdropWhile isSpace

/-- The function `containsMismatchedQuotes` (csv.go lines 55-64): count the quote runes in a
loop, report whether the count is odd. -/
def containsMismatchedQuotes (line : GoString) : Bool :=
  let quoteCount : Nat :=
    line.foldl (fun quoteCount ch => if ch = quoteRune then quoteCount + 1 else quoteCount) 0
  quoteCount % 2 != 0

/-- The local variables of the loop of `parseFields`. -/
structure SplitVars where
  fields : List GoString
  field : GoString
  inQuotes : Bool
  deriving DecidableEq, Repr

/-- One iteration of the loop body of `parseFields` (csv.go lines 73-82). -/
def parseStep (v : SplitVars) (ch : Char) : SplitVars :=
  if ch = quoteRune then
    { v with inQuotes := !v.inQuotes }
  else if ch = commaRune && !v.inQuotes then
    { v with fields := v.fields ++ [v.field], field := [] }
  else
    { v with field := v.field ++ [ch] }

/-- The function `parseFields` (csv.go lines 67-90). -/
def parseFields (line : GoString) : List GoString :=
  let v := line.foldl parseStep ⟨[], [], false⟩
  if v.field.length > 0 then v.fields ++ [v.field] else v.fields

/-- The method `ReadLine` (csv.go lines 30-52): the Go results `(string, error)` and the
receiver after the call. -/
def ReadLine (p : StructCSVParser) (r : ScanOutcome) :
    (GoString × Option Error) × StructCSVParser :=
  match r with
  | .token line =>
    if containsMismatchedQuotes line then
      (([], some .ErrQuote), p)
    else
      let line := TrimSpace line
      ((line, none), { currentLine := line, fields := parseFields line })
  | .failed err => (([], some err), p)
  | .eof => (([], none), p)

/-- The method `GetField` (csv.go lines 93-98); `none` stands for a run-time panic of
the slice index. -/
def GetField (p : StructCSVParser) (n : Int) : Option (GoString × Option Error) :=
  if n < 0 ∨ n ≥ (p.fields.length : Int) then
    some ([], some .ErrFieldCount)
  else
    (p.fields.get? n.toNat).map fun f => (f, none)

/-- The method `GetNumberOfFields` (csv.go lines 101-103). -/
def GetNumberOfFields (p : StructCSVParser) : Int :=
  (p.fields.length : Int)

/-! ## Vocabulary of the specification -/

/-- The value of `inQuotes` after the loop of `parseFields` has read `s`, having started
in `q`: each quote rune toggles it. -/
def stateAfter (q : Bool) (s : GoString) : Bool :=
  s.foldl (fun q ch => if ch = quoteRune then !q else q) q

/-- Each rune of the input paired with the value of `inQuotes` at the moment the loop
reads it (`false` is Unquoted, `true` is Quoted). -/
def readStates : Bool → GoString → List (Char × Bool)
  | _, [] => []
  | q, ch :: rest => (ch, q) :: readStates (if ch = quoteRune then !q else q) rest

/-- An unquoted comma: a comma read while `inQuotes` is false. -/
def isUnquotedComma (x : Char × Bool) : Bool :=
  x.1 = commaRune && !x.2

/-- The number of unquoted commas: commas read in the Unquoted state. -/
def unquotedCommas (line : GoString) : Nat :=
  (readStates false line).countP isUnquotedComma

/-- The text after the last unquoted comma of the line (the whole line when it has none),
with its quote runes removed. -/
def textAfterLastUnquotedComma (line : GoString) : GoString :=
  (((readStates false line).rtakeWhile fun x => !isUnquotedComma x).map
    Prod.fst).filter fun ch => !(ch = quoteRune)

/-- Go's `strings.Join(fs, ",")` on rune sequences. -/
def joinComma (fs : List GoString) : GoString :=
  List.intercalate [commaRune] fs

/-- A sequence of `ReadLine` calls on one parser: the Go results of every call, in order,
and the receiver after the last one. -/
def ReadLines (p : StructCSVParser) :
    List ScanOutcome → List (GoString × Option Error) × StructCSVParser
  | [] => ([], p)
  | r :: rs =>
    let x := ReadLine p r
    let y := ReadLines x.2 rs
    (x.1 :: y.1, y.2)

/-- The calls of the interface `CSVParser` (csv.go lines 17-21). -/
inductive Call where
  | ReadLine (r : ScanOutcome)
  | GetField (n : Int)
  | GetNumberOfFields
  deriving DecidableEq, Repr

/-- The Go results of a call of the interface. -/
inductive Ret where
  | text (s : GoString) (err : Option Error)
  | count (n : Int)
  deriving DecidableEq, Repr

/-- One call on a `*StructCSVParser`: its results and the receiver afterwards; `none` would
be a panic.  Only `ReadLine` assigns to the receiver. -/
def call (p : StructCSVParser) : Call → Option (Ret × StructCSVParser)
  | .ReadLine r => some (.text (ReadLine p r).1.1 (ReadLine p r).1.2, (ReadLine p r).2)
  | .GetField n => (GetField p n).map fun x => (.text x.1 x.2, p)
  | .GetNumberOfFields => some (.count (GetNumberOfFields p), p)

/-- A sequence of calls of the interface on one parser, left to right: the results of every
call and the receiver after the last one; `none` if one of the calls panicked. -/
def runCalls (p : StructCSVParser) : List Call → Option (List Ret × StructCSVParser)
  | [] => some ([], p)
  | c :: cs =>
    match call p c with
    | none => none
    | some (r, p1) =>
      match runCalls p1 cs with
      | none => none
      | some (rs, p2) => some (r :: rs, p2)

/-- The state invariant of section 3: the stored fields are the split (`parseFields`) of the
stored line text after trimming. -/
def fieldsDerived (p : StructCSVParser) : Prop :=
  p.fields = parseFields (TrimSpace p.currentLine)

instance (p : StructCSVParser) : Decidable (fieldsDerived p) := by
  unfold fieldsDerived
  infer_instance

/-- The runes of the line that the loop of `parseFields` reads while `inQuotes` is true, in
order. -/
def quotedRunes (line : GoString) : GoString :=
  ((readStates false line).filter fun x => x.2).map Prod.fst

/-- The trace of the loop of `parseFields` run from the variables `v`: each rune paired with
the value of the variable `inQuotes` at the moment the loop body (`parseStep`) reads it. -/
def loopStates (v : SplitVars) : GoString → List (Char × Bool)
  | [] => []
  | ch :: rest => (ch, v.inQuotes) :: loopStates (parseStep v ch) rest

/-- The runes that the loop of `parseFields`, run on the line from its initial variables,
reads while its variable `inQuotes` is true, in order. -/
def loopQuotedRunes (line : GoString) : GoString :=
  ((loopStates ⟨[], [], false⟩ line).filter fun x => x.2).map Prod.fst

/-- The line with every quote rune and every unquoted comma removed, all other runes kept in
order. -/
def withoutQuotesAndUnquotedCommas (line : GoString) : GoString :=
  ((readStates false line).filter fun x => !(x.1 = quoteRune) && !isUnquotedComma x).map
    Prod.fst

end csv

/-! ## The splitting state machine as the specification words it (section 4.2) -/

namespace csv.Spec

/-- The two states of the machine of section 4.2. -/
inductive Mode where
  | Unquoted
  | Quoted
  deriving DecidableEq, Repr

/-- Toggle between `Unquoted` and `Quoted`. -/
def Mode.toggle : Mode → Mode
  | .Unquoted => .Quoted
  | .Quoted => .Unquoted

/-- The machine of section 4.2: its state, the current field buffer, the field sequence. -/
structure Machine where
  mode : Mode
  buffer : GoString
  out : List GoString
  deriving DecidableEq, Repr

/-- The transition rules of section 4.2, one character at a time. -/
def transition (m : Machine) (ch : Char) : Machine :=
  if ch = quoteRune then
    { m with mode := m.mode.toggle }
  else if ch = commaRune then
    match m.mode with
    | .Unquoted => { m with out := m.out ++ [m.buffer], buffer := [] }
    | .Quoted => { m with buffer := m.buffer ++ [commaRune] }
  else
    { m with buffer := m.buffer ++ [ch] }

/-- The machine run over a whole line from the initial state `Unquoted`. -/
def runMachine (line : GoString) : Machine :=
  line.foldl transition ⟨.Unquoted, [], []⟩

/-- The split of section 4.2 with its end-of-line rule: after the last character the
buffer is appended as a final field if it is non-empty. -/
def split (line : GoString) : List GoString :=
  if (runMachine line).buffer ≠ [] then (runMachine line).out ++ [(runMachine line).buffer]
  else (runMachine line).out

/-- The corrected variant section 4.2 describes: always emit the trailing field, also when
it is empty. -/
def splitAlwaysEmit (line : GoString) : List GoString :=
  (runMachine line).out ++ [(runMachine line).buffer]

end csv.Spec

/-! ## The copy of the parser in the entry point (`src/main.go`) -/

namespace main

open csv (GoString quoteRune commaRune TrimSpace)

/-- Error values of package `main`: its own two sentinels (main.go lines 13-16) and
whatever non-nil error `scanner.Err()` may hand back. -/
inductive Error where
  | ErrQuote
  | ErrFieldCount
  | scanner (text : String)
  deriving DecidableEq, Repr

/-- The method `Error()` of an error value of package `main`: the text given to
`errors.New` (main.go lines 14-15). -/
def Error.Error : Error → String
  | .ErrQuote => "excess or missing \" in quoted-field"
  | .ErrFieldCount => "wrong number of fields"
  | .scanner text => text

/-- What `scanner.Scan()` reports on the single call `ReadLine` of package `main` makes. -/
inductive ScanOutcome where
  | token (line : GoString)
  | failed (err : Error)
  | eof
  deriving DecidableEq, Repr

/-- The struct `CSVParserImpl` (main.go lines 26-29). -/
structure CSVParserImpl where
  currentLine : GoString
  fields : List GoString
  deriving DecidableEq, Repr

/-- The function `containsMismatchedQuotes` of package `main` (main.go lines 61-69). -/
def containsMismatchedQuotes (line : GoString) : Bool :=
  let quoteCount : Nat :=
    line.foldl (fun quoteCount ch => if ch = quoteRune then quoteCount + 1 else quoteCount) 0
  quoteCount % 2 != 0

/-- The local variables of the loop of `parseFields` of package `main`. -/
structure SplitVars where
  fields : List GoString
  field : GoString
  inQuotes : Bool
  deriving DecidableEq, Repr

/-- One iteration of the loop body of `parseFields` of package `main` (main.go lines
78-87). -/
def parseStep (v : SplitVars) (ch : Char) : SplitVars :=
  if ch = quoteRune then
    { v with inQuotes := !v.inQuotes }
  else if ch = commaRune && !v.inQuotes then
    { v with fields := v.fields ++ [v.field], field := [] }
  else
    { v with field := v.field ++ [ch] }

/-- The function `parseFields` of package `main` (main.go lines 72-95). -/
def parseFields (line : GoString) : List GoString :=
  let v := line.foldl parseStep ⟨[], [], false⟩
  if v.field.length > 0 then v.fields ++ [v.field] else v.fields

/-- The method `ReadLine` of `*CSVParserImpl` (main.go lines 32-58): the Go results and the
receiver after the call. -/
def ReadLine (p : CSVParserImpl) (r : ScanOutcome) :
    (GoString × Option Error) × CSVParserImpl :=
  match r with
  | .token line =>
    if containsMismatchedQuotes line then
      (([], some .ErrQuote), p)
    else
      let line := TrimSpace line
      ((line, none), { currentLine := line, fields := parseFields line })
  | .failed err => (([], some err), p)
  | .eof => (([], none), p)

/-- The method `GetField` of `*CSVParserImpl` (main.go lines 98-103); `none` stands for a
run-time panic of the slice index. -/
def GetField (p : CSVParserImpl) (n : Int) : Option (GoString × Option Error) :=
  if n < 0 ∨ n ≥ (p.fields.length : Int) then
    some ([], some .ErrFieldCount)
  else
    (p.fields.get? n.toNat).map fun f => (f, none)

/-- The method `GetNumberOfFields` of `*CSVParserImpl` (main.go lines 106-108). -/
def GetNumberOfFields (p : CSVParserImpl) : Int :=
  (p.fields.length : Int)

/-- The error of package `main` that corresponds to an error of package `csv`: sentinel to
sentinel of the same name, any other error to itself. -/
def ofCsvError : csv.Error → Error
  | .ErrQuote => .ErrQuote
  | .ErrFieldCount => .ErrFieldCount
  | .scanner text => .scanner text

/-- The same scan outcome, seen by package `main`. -/
def ofCsvOutcome : csv.ScanOutcome → ScanOutcome
  | .token line => .token line
  | .failed err => .failed (ofCsvError err)
  | .eof => .eof

/-- The `CSVParserImpl` with the same stored line and fields as a `StructCSVParser`. -/
def ofCsvParser (p : csv.StructCSVParser) : CSVParserImpl :=
  ⟨p.currentLine, p.fields⟩

end main

/-! ## Strings as bytes

A Go `string` is a sequence of bytes.  `range` decodes it rune by rune, yielding U+FFFD for a
byte that does not start a well-formed UTF-8 sequence, and `WriteRune` appends the UTF-8
encoding of a rune.  This layer keeps the bytes, for the statements that compare the text of
a field with text of the input. -/

namespace csv

/-- A Go string as what it is: a sequence of bytes. -/
abbrev GoBytes := List (Fin 256)

/-- Go's conversion `byte(x)`: the low eight bits. -/
def toByte (n : Nat) : Fin 256 := ⟨n % 256, Nat.mod_lt _ (by decide)⟩

/-- The byte of the quote rune, 0x22. -/
def quoteByte : Fin 256 := toByte 34

/-- The byte of the comma rune, 0x2C. -/
def commaByte : Fin 256 := toByte 44

/-- Go's `utf8.RuneError`, U+FFFD. -/
def RuneError : Char := Char.ofNat 0xFFFD

/-- Go's `utf8.AppendRune` (standard library), which `strings.Builder.WriteRune` calls: the
UTF-8 encoding of a rune, one to four bytes.  Shifts and masks are written as division and
remainder, `|` of disjoint bits as `+`.  A `Char` is a Unicode scalar value, as every rune
`range` yields is, so the branch for surrogates and values above U+10FFFF is not needed. -/
def encodeRune (c : Char) : GoBytes :=
  if c.toNat ≤ 0x7F then
    [toByte c.toNat]
  else if c.toNat ≤ 0x7FF then
    [toByte (0xC0 + c.toNat / 64), toByte (0x80 + c.toNat % 64)]
  else if c.toNat ≤ 0xFFFF then
    [toByte (0xE0 + c.toNat / 4096), toByte (0x80 + c.toNat / 64 % 64),
     toByte (0x80 + c.toNat % 64)]
  else
    [toByte (0xF0 + c.toNat / 262144), toByte (0x80 + c.toNat / 4096 % 64),
     toByte (0x80 + c.toNat / 64 % 64), toByte (0x80 + c.toNat % 64)]

/-- The bytes of a string built by calling `WriteRune` on each rune in turn. -/
def encodeString (rs : GoString) : GoBytes :=
  (rs.map encodeRune).flatten

/-- Go's `utf8.DecodeRuneInString` (standard library), which `range` over a string applies
at each position: the rune at the start of the bytes and its width.  The table `first` and
the `acceptRanges` are written as comparisons: a lead byte 0xC2-0xDF starts two bytes,
0xE0-0xEF three, 0xF0-0xF4 four; the second byte must lie in 0x80-0xBF, narrowed to
0xA0-0xBF after 0xE0, 0x80-0x9F after 0xED, 0x90-0xBF after 0xF0 and 0x80-0x8F after 0xF4;
later bytes in 0x80-0xBF.  Anything else is `(RuneError, 1)`. -/
def decodeRune : GoBytes → Char × Nat
  | [] => (RuneError, 0)
  | s0 :: rest =>
    if s0.val < 0x80 then (Char.ofNat s0.val, 1)
    else if s0.val < 0xC2 ∨ 0xF4 < s0.val then (RuneError, 1)
    else
      let sz : Nat := if s0.val < 0xE0 then 2 else if s0.val < 0xF0 then 3 else 4
      let lo : Nat := if s0.val = 0xE0 then 0xA0 else if s0.val = 0xF0 then 0x90 else 0x80
      let hi : Nat := if s0.val = 0xED then 0x9F else if s0.val = 0xF4 then 0x8F else 0xBF
      if rest.length + 1 < sz then (RuneError, 1)
      else
        match rest with
        | [] => (RuneError, 1)
        | s1 :: rest1 =>
          if s1.val < lo ∨ hi < s1.val then (RuneError, 1)
          else if sz ≤ 2 then (Char.ofNat (s0.val % 32 * 64 + s1.val % 64), 2)
          else
            match rest1 with
            | [] => (RuneError, 1)
            | s2 :: rest2 =>
              if s2.val < 0x80 ∨ 0xBF < s2.val then (RuneError, 1)
              else if sz ≤ 3 then
                (Char.ofNat (s0.val % 16 * 4096 + s1.val % 64 * 64 + s2.val % 64), 3)
              else
                match rest2 with
                | [] => (RuneError, 1)
                | s3 :: _ =>
                  if s3.val < 0x80 ∨ 0xBF < s3.val then (RuneError, 1)
                  else
                    (Char.ofNat (s0.val % 8 * 262144 + s1.val % 64 * 4096
                      + s2.val % 64 * 64 + s3.val % 64), 4)

/-- The runes `for _, ch := range s` yields, with `skip` bytes of the current rune still to
pass over: at a rune start the rune is decoded and yielded, and the loop moves on by its
width. -/
def runesFrom : Nat → GoBytes → List Char
  | _, [] => []
  | 0, b :: rest =>
    (decodeRune (b :: rest)).1 :: runesFrom ((decodeRune (b :: rest)).2 - 1) rest
  | skip + 1, _ :: rest => runesFrom skip rest

/-- The runes `for _, ch := range s` yields for the string `s`. -/
def runes (s : GoBytes) : List Char := runesFrom 0 s

/-- Valid UTF-8, what Go's `utf8.ValidString` reports, stated through the two functions
above: the bytes are the UTF-8 encoding of the runes they decode to (no byte was read as
`RuneError` in place of itself). -/
def validUTF8 (s : GoBytes) : Prop := encodeString (runes s) = s

instance (s : GoBytes) : Decidable (validUTF8 s) := by
  unfold validUTF8
  infer_instance

/-- The local variables of the loop of `parseFields`, the builder holding bytes. -/
structure SplitVarsBytes where
  fields : List GoBytes
  field : GoBytes
  inQuotes : Bool
  deriving DecidableEq, Repr

/-- One iteration of the loop body of `parseFields` (csv.go lines 73-82) on the rune `ch`
that `range` yielded; `WriteRune` appends the encoding of the rune to the builder. -/
def parseStepBytes (v : SplitVarsBytes) (ch : Char) : SplitVarsBytes :=
  if ch = quoteRune then
    { v with inQuotes := !v.inQuotes }
  else if ch = commaRune && !v.inQuotes then
    { v with fields := v.fields ++ [v.field], field := [] }
  else
    { v with field := v.field ++ encodeRune ch }

/-- The function `parseFields` (csv.go lines 67-90) on the bytes of its argument and of its
results: `range` decodes the line, `field.Len()` is the number of bytes in the builder. -/
def parseFieldsBytes (line : GoBytes) : List GoBytes :=
  let v := (runes line).foldl parseStepBytes ⟨[], [], false⟩
  if v.field.length > 0 then v.fields ++ [v.field] else v.fields

/-- Go's `strings.Join(fs, ",")` on bytes. -/
def joinCommaBytes (fs : List GoBytes) : GoBytes :=
  List.intercalate [commaByte] fs

/-- Each byte of the input paired with the state in which the splitting machine is when it
reaches that byte: a quote byte toggles it (`false` is Unquoted, `true` is Quoted). -/
def readStatesBytes : Bool → GoBytes → List (Fin 256 × Bool)
  | _, [] => []
  | q, b :: rest => (b, q) :: readStatesBytes (if b = quoteByte then !q else q) rest

/-- The bytes of the line with every quote character and every unquoted comma removed, all
other bytes kept in order. -/
def withoutQuotesAndUnquotedCommasBytes (line : GoBytes) : GoBytes :=
  ((readStatesBytes false line).filter fun x =>
    !(x.1 = quoteByte) && !(x.1 = commaByte && !x.2)).map Prod.fst

end csv

/-! ## Quote counting -/

namespace csv

theorem quoteCount_foldl (line : GoString) (k : Nat) :
    line.foldl (fun quoteCount ch => if ch = quoteRune then quoteCount + 1 else quoteCount) k
      = k + line.count quoteRune := by
  induction line generalizing k with
  | nil => simp
  | cons c cs ih =>
    rw [List.foldl_cons, ih]
    by_cases hc : c = quoteRune
    · subst hc
      simp
      omega
    · have hne : (c == quoteRune) = false := by simpa using hc
      simp [hc, List.count_cons, hne]

theorem containsMismatchedQuotes_iff (line : GoString) :
    containsMismatchedQuotes line = true ↔ line.count quoteRune % 2 = 1 := by
  unfold containsMismatchedQuotes
  simp only [quoteCount_foldl, Nat.zero_add, bne_iff_ne, ne_eq]
  omega

theorem containsMismatchedQuotes_eq_false_iff (line : GoString) :
    containsMismatchedQuotes line = false ↔ line.count quoteRune % 2 = 0 := by
  have h := containsMismatchedQuotes_iff line
  cases hb : containsMismatchedQuotes line
  · simp [hb] at h
    constructor
    · intro _; omega
    · intro _; rfl
  · simp [hb] at h
    simp [h]

/-- C1: a line with an odd number of quote runes is rejected with `ErrQuote`, the empty
string is returned, and the parser state (stored line, fields, hence the answers of
`GetNumberOfFields` and of `GetField` at every index) is what it was before the call. -/
theorem C1_odd_quotes_rejected (p : StructCSVParser) (line : GoString)
    (hodd : line.count quoteRune % 2 = 1) :
    ReadLine p (.token line) = (([], some Error.ErrQuote), p) ∧
    (ReadLine p (.token line)).2.currentLine = p.currentLine ∧
    (ReadLine p (.token line)).2.fields = p.fields ∧
    GetNumberOfFields (ReadLine p (.token line)).2 = GetNumberOfFields p ∧
    ∀ i : Int, GetField (ReadLine p (.token line)).2 i = GetField p i := by
  have hq : containsMismatchedQuotes line = true := (containsMismatchedQuotes_iff line).2 hodd
  have hr : ReadLine p (.token line) = (([], some Error.ErrQuote), p) := by
    simp [ReadLine, hq]
  rw [hr]
  exact ⟨rfl, rfl, rfl, rfl, fun _ => rfl⟩

theorem C1_odd_quotes_rejected_witness :
    ("a\"b,c".toList.count quoteRune % 2 = 1) ∧
    ReadLine ⟨"x,y".toList, ["x".toList, "y".toList]⟩ (.token "a\"b,c".toList)
      = (([], some Error.ErrQuote), ⟨"x,y".toList, ["x".toList, "y".toList]⟩) :=
  ⟨by decide,
   (C1_odd_quotes_rejected ⟨"x,y".toList, ["x".toList, "y".toList]⟩ "a\"b,c".toList
      (by decide)).1⟩

end csv

/-! ## The loop of `parseFields` -/

namespace csv

theorem quoteRune_ne_commaRune : quoteRune ≠ commaRune := by decide

theorem stateAfter_append (q : Bool) (a b : GoString) :
    stateAfter q (a ++ b) = stateAfter (stateAfter q a) b := by
  simp [stateAfter, List.foldl_append]

theorem stateAfter_cons (q : Bool) (c : Char) (s : GoString) :
    stateAfter q (c :: s) = stateAfter (if c = quoteRune then !q else q) s := rfl

theorem readStates_append (q : Bool) (a b : GoString) :
    readStates q (a ++ b) = readStates q a ++ readStates (stateAfter q a) b := by
  induction a generalizing q with
  | nil => rfl
  | cons c cs ih => simp [readStates, stateAfter_cons, ih]

theorem foldl_parseStep_inQuotes (v : SplitVars) (xs : GoString) :
    (xs.foldl parseStep v).inQuotes = stateAfter v.inQuotes xs := by
  induction xs generalizing v with
  | nil => rfl
  | cons c cs ih =>
    rw [List.foldl_cons, ih, stateAfter_cons]
    unfold parseStep
    by_cases hc : c = quoteRune
    · simp [hc]
    · by_cases h2 : (c = commaRune && !v.inQuotes) = true
      · simp [hc, h2]
      · simp [hc, h2]

/-- Runes that are neither a quote nor an unquoted comma are appended to the buffer. -/
theorem foldl_parseStep_plain (v : SplitVars) (xs : GoString)
    (hq : ∀ c ∈ xs, c ≠ quoteRune)
    (hc : v.inQuotes = true ∨ ∀ c ∈ xs, c ≠ commaRune) :
    xs.foldl parseStep v = { v with field := v.field ++ xs } := by
  induction xs generalizing v with
  | nil => simp
  | cons c cs ih =>
    have h1 : c ≠ quoteRune := hq c (List.mem_cons_self _ _)
    have h2 : ¬ ((c = commaRune && !v.inQuotes) = true) := by
      rcases hc with h | h
      · simp [h]
      · simp [h c (List.mem_cons_self _ _)]
    have hstep : parseStep v c = { v with field := v.field ++ [c] } := by
      unfold parseStep
      simp only [h1, if_false]
      rw [if_neg h2]
    rw [List.foldl_cons, hstep, ih]
    · simp
    · intro x hx
      exact hq x (List.mem_cons_of_mem _ hx)
    · rcases hc with h | h
      · exact Or.inl h
      · exact Or.inr fun x hx => h x (List.mem_cons_of_mem _ hx)

end csv

namespace csv

theorem readStates_concat (xs : GoString) (c : Char) :
    readStates false (xs ++ [c]) = readStates false xs ++ [(c, stateAfter false xs)] := by
  rw [readStates_append]
  rfl

/-- What the loop of `parseFields` holds after reading a whole line: as many closed fields
as unquoted commas were read, and the text after the last of them in the buffer. -/
theorem parseFields_loop (xs : GoString) :
    (xs.foldl parseStep ⟨[], [], false⟩).fields.length = unquotedCommas xs ∧
    (xs.foldl parseStep ⟨[], [], false⟩).field = textAfterLastUnquotedComma xs := by
  induction xs using List.reverseRecOn with
  | nil => exact ⟨rfl, rfl⟩
  | append_singleton xs c ih =>
    obtain ⟨ih1, ih2⟩ := ih
    have hq := foldl_parseStep_inQuotes ⟨[], [], false⟩ xs
    simp only at hq
    rw [List.foldl_append, List.foldl_cons, List.foldl_nil]
    unfold unquotedCommas textAfterLastUnquotedComma at *
    rw [readStates_concat, List.countP_append]
    generalize xs.foldl parseStep ⟨[], [], false⟩ = v at *
    have hu : isUnquotedComma (c, stateAfter false xs) = (c = commaRune && !v.inQuotes) := by
      simp [isUnquotedComma, hq]
    unfold parseStep
    by_cases hc : c = quoteRune
    · subst hc
      have hn : isUnquotedComma (quoteRune, stateAfter false xs) = false := by
        simp [isUnquotedComma, quoteRune_ne_commaRune]
      rw [List.rtakeWhile_concat_pos _ _ _ (by simp [hn])]
      simp [ih1, ih2, hn, List.countP_cons]
    · by_cases h2 : (c = commaRune && !v.inQuotes) = true
      · rw [h2] at hu
        rw [List.rtakeWhile_concat_neg _ _ _ (by simp [hu])]
        simp only [hc, if_false, h2, if_true, List.length_append, List.length_singleton, ih1]
        simp [List.countP_cons, hu]
      · have h2f : (decide (c = commaRune) && !v.inQuotes) = false := by simpa using h2
        rw [h2f] at hu
        rw [List.rtakeWhile_concat_pos _ _ _ (by simp [hu])]
        simp only [hc, if_false, h2f, Bool.false_eq_true]
        refine ⟨?_, ?_⟩
        · simp [List.countP_cons, hu, ih1]
        · simp [hc, ih2]

end csv

/-! ## The source loop and the machine of section 4.2 agree -/

namespace csv

/-- The machine state that corresponds to the loop variables of `parseFields`. -/
theorem transition_simulates (v : SplitVars) (c : Char) :
    Spec.transition
        ⟨if v.inQuotes then .Quoted else .Unquoted, v.field, v.fields⟩ c
      = ⟨if (parseStep v c).inQuotes then .Quoted else .Unquoted,
         (parseStep v c).field, (parseStep v c).fields⟩ := by
  unfold Spec.transition parseStep
  by_cases hc : c = quoteRune
  · cases hq : v.inQuotes <;> simp [hc, Spec.Mode.toggle]
  · by_cases h2 : c = commaRune
    · subst h2
      cases hq : v.inQuotes <;> simp [quoteRune_ne_commaRune.symm]
    · simp [hc, h2]

theorem foldl_transition_simulates (xs : GoString) (v : SplitVars) :
    xs.foldl Spec.transition ⟨if v.inQuotes then .Quoted else .Unquoted, v.field, v.fields⟩
      = ⟨if (xs.foldl parseStep v).inQuotes then .Quoted else .Unquoted,
         (xs.foldl parseStep v).field, (xs.foldl parseStep v).fields⟩ := by
  induction xs generalizing v with
  | nil => rfl
  | cons c cs ih => rw [List.foldl_cons, List.foldl_cons, transition_simulates, ih]

theorem runMachine_eq (line : GoString) :
    Spec.runMachine line
      = ⟨if (line.foldl parseStep ⟨[], [], false⟩).inQuotes then .Quoted else .Unquoted,
         (line.foldl parseStep ⟨[], [], false⟩).field,
         (line.foldl parseStep ⟨[], [], false⟩).fields⟩ :=
  foldl_transition_simulates line ⟨[], [], false⟩

/-- The function `parseFields` computes the split of section 4.2. -/
theorem parseFields_eq_split (line : GoString) : parseFields line = Spec.split line := by
  unfold parseFields Spec.split
  rw [runMachine_eq]
  simp only
  cases h : (line.foldl parseStep ⟨[], [], false⟩).field with
  | nil => simp
  | cons a t => simp

end csv

/-! ## Trimming -/

namespace csv

theorem isSpace_quoteRune : isSpace quoteRune = false := by decide

theorem isSpace_commaRune : isSpace commaRune = false := by decide

theorem ne_quoteRune_of_isSpace {c : Char} (h : isSpace c = true) : c ≠ quoteRune := by
  intro hc
  rw [hc, isSpace_quoteRune] at h
  exact Bool.false_ne_true h

theorem ne_commaRune_of_isSpace {c : Char} (h : isSpace c = true) : c ≠ commaRune := by
  intro hc
  rw [hc, isSpace_commaRune] at h
  exact Bool.false_ne_true h

theorem rdropWhile_append_rtakeWhile (p : Char → Bool) (l : GoString) :
    l.rdropWhile p ++ l.rtakeWhile p = l := by
  unfold List.rdropWhile List.rtakeWhile
  rw [← List.reverse_append, List.takeWhile_append_dropWhile, List.reverse_reverse]

/-- Trimming removes a prefix and a suffix made of white space only. -/
theorem TrimSpace_decomp (line : GoString) :
    line = line.takeWhile isSpace ++ TrimSpace line ++ (line.dropWhile isSpace).rtakeWhile isSpace ∧
    (∀ c ∈ line.takeWhile isSpace, isSpace c = true) ∧
    (∀ c ∈ (line.dropWhile isSpace).rtakeWhile isSpace, isSpace c = true) := by
  refine ⟨?_, ?_, ?_⟩
  · unfold TrimSpace
    rw [List.append_assoc, rdropWhile_append_rtakeWhile, List.takeWhile_append_dropWhile]
  · intro c hc
    exact List.mem_takeWhile_imp hc
  · intro c hc
    exact List.mem_rtakeWhile_imp hc

end csv

namespace csv

theorem count_quoteRune_of_isSpace (ws : GoString) (h : ∀ c ∈ ws, isSpace c = true) :
    ws.count quoteRune = 0 := by
  rw [List.count_eq_zero]
  intro hmem
  exact ne_quoteRune_of_isSpace (h _ hmem) rfl

theorem stateAfter_of_isSpace (q : Bool) (ws : GoString) (h : ∀ c ∈ ws, isSpace c = true) :
    stateAfter q ws = q := by
  induction ws with
  | nil => rfl
  | cons c cs ih =>
    rw [stateAfter_cons, if_neg (ne_quoteRune_of_isSpace (h c (List.mem_cons_self _ _)))]
    exact ih fun x hx => h x (List.mem_cons_of_mem _ hx)

theorem mem_readStates {q : Bool} {s : GoString} {x : Char × Bool}
    (hx : x ∈ readStates q s) : x.1 ∈ s := by
  induction s generalizing q with
  | nil => simp [readStates] at hx
  | cons c cs ih =>
    simp only [readStates, List.mem_cons] at hx
    rcases hx with h | h
    · simp [h]
    · exact List.mem_cons_of_mem _ (ih h)

theorem countP_readStates_of_isSpace (q : Bool) (ws : GoString)
    (h : ∀ c ∈ ws, isSpace c = true) :
    (readStates q ws).countP isUnquotedComma = 0 := by
  rw [List.countP_eq_zero]
  intro x hx hu
  have h1 : x.1 = commaRune := by
    unfold isUnquotedComma at hu
    simp only [Bool.and_eq_true, decide_eq_true_eq] at hu
    exact hu.1
  exact ne_commaRune_of_isSpace (h _ (mem_readStates hx)) h1

/-- Trimming removes no unquoted comma (it removes no comma at all). -/
theorem unquotedCommas_TrimSpace (line : GoString) :
    unquotedCommas (TrimSpace line) = unquotedCommas line := by
  obtain ⟨h1, h2, h3⟩ := TrimSpace_decomp line
  conv_rhs => rw [h1]
  unfold unquotedCommas
  rw [readStates_append, readStates_append, List.countP_append, List.countP_append,
    countP_readStates_of_isSpace _ _ h2, countP_readStates_of_isSpace _ _ h3,
    stateAfter_of_isSpace _ _ h2]
  omega

theorem dropWhile_rdropWhile_dropWhile (p : Char → Bool) (l : GoString) :
    (((l.dropWhile p).rdropWhile p).dropWhile p) = (l.dropWhile p).rdropWhile p := by
  have hpre : (l.dropWhile p).rdropWhile p <+: l.dropWhile p := List.rdropWhile_prefix p _
  cases hm : (l.dropWhile p).rdropWhile p with
  | nil => rfl
  | cons a t =>
    rw [hm] at hpre
    obtain ⟨r, hr⟩ := hpre
    have hhead : (l.dropWhile p).head? = some a := by rw [← hr]; rfl
    have hna : p a = false := by
      have := List.head?_dropWhile_not p l
      rw [hhead] at this
      simpa using this
    simp [List.dropWhile_cons, hna]

theorem TrimSpace_idem (line : GoString) : TrimSpace (TrimSpace line) = TrimSpace line := by
  unfold TrimSpace
  rw [dropWhile_rdropWhile_dropWhile, List.rdropWhile_idempotent]

/-- The trimmed text neither starts nor ends with white space. -/
theorem TrimSpace_ends (line : GoString) :
    (∀ c, (TrimSpace line).head? = some c → isSpace c = false) ∧
    (∀ c, (TrimSpace line).getLast? = some c → isSpace c = false) := by
  constructor
  · intro c hc
    have h := TrimSpace_idem line
    unfold TrimSpace at h hc
    rw [dropWhile_rdropWhile_dropWhile] at h
    have := List.head?_dropWhile_not isSpace ((line.dropWhile isSpace).rdropWhile isSpace)
    rw [dropWhile_rdropWhile_dropWhile, hc] at this
    simpa using this
  · intro c hc
    unfold TrimSpace at hc
    have hne : (line.dropWhile isSpace).rdropWhile isSpace ≠ [] := by
      intro h
      rw [h] at hc
      simp at hc
    have h := List.rdropWhile_last_not isSpace (line.dropWhile isSpace) hne
    rw [List.getLast?_eq_getLast _ hne] at hc
    simp only [Option.some.injEq] at hc
    rw [hc] at h
    simpa using h

end csv

/-! ## Parsing a line -/

namespace csv

theorem ReadLine_of_even (p : StructCSVParser) (line : GoString)
    (heven : line.count quoteRune % 2 = 0) :
    ReadLine p (.token line)
      = ((TrimSpace line, none),
         { currentLine := TrimSpace line, fields := parseFields (TrimSpace line) }) := by
  have hq : containsMismatchedQuotes line = false :=
    (containsMismatchedQuotes_eq_false_iff line).2 heven
  simp [ReadLine, hq]

theorem parseFields_length (line : GoString) :
    (parseFields line).length
      = unquotedCommas line + (if textAfterLastUnquotedComma line = [] then 0 else 1) := by
  obtain ⟨h1, h2⟩ := parseFields_loop line
  unfold parseFields
  simp only
  rw [h2]
  cases ht : textAfterLastUnquotedComma line with
  | nil => simp [h1]
  | cons a t => simp [h1]

/-- C2, counterexample: the line `a,b,` has no quote rune and two unquoted commas, parsing
it succeeds, and the record then has two fields, not three. -/
theorem C2_counterexample :
    ¬ (∀ (p : StructCSVParser) (line : GoString), line.count quoteRune % 2 = 0 →
        (ReadLine p (.token line)).1.2 = none ∧
        GetNumberOfFields (ReadLine p (.token line)).2 = 1 + (unquotedCommas line : Int)) := by
  intro h
  have h2 := (h StructCSVParser.zero "a,b,".toList (by decide)).2
  revert h2
  decide

/-- C2, amended: a line with an even number of quote runes parses without error, and the
number of fields is then the number of unquoted commas of the line, plus one exactly when
the text after the last unquoted comma of the trimmed line, quote runes removed, is not
empty. -/
theorem C2_field_count (p : StructCSVParser) (line : GoString)
    (heven : line.count quoteRune % 2 = 0) :
    (ReadLine p (.token line)).1.2 = none ∧
    GetNumberOfFields (ReadLine p (.token line)).2
      = (unquotedCommas line : Int)
        + (if textAfterLastUnquotedComma (TrimSpace line) = [] then 0 else 1) := by
  rw [ReadLine_of_even p line heven]
  refine ⟨rfl, ?_⟩
  unfold GetNumberOfFields
  simp only
  rw [parseFields_length, unquotedCommas_TrimSpace]
  split <;> simp

theorem C2_field_count_witness :
    ("a,\"b,c\", d ".toList.count quoteRune % 2 = 0) ∧
    GetNumberOfFields (ReadLine StructCSVParser.zero (.token "a,\"b,c\", d ".toList)).2 = 3 ∧
    unquotedCommas "a,\"b,c\", d ".toList = 2 ∧
    textAfterLastUnquotedComma (TrimSpace "a,\"b,c\", d ".toList) = " d".toList :=
  ⟨by decide,
   by
    rw [(C2_field_count StructCSVParser.zero "a,\"b,c\", d ".toList (by decide)).2]
    decide,
   by decide, by decide⟩

/-! ## Field access -/

/-- C3: `GetField(i)` fails with `ErrFieldCount` and the empty string exactly when `i < 0`
or `i >= n`, otherwise it returns the `i`-th field with a nil error; in particular
`GetField(-1)` and `GetField(n)` fail; it never panics and never changes the receiver. -/
theorem C3_GetField (p : StructCSVParser) (i : Int) :
    (GetField p i = some ([], some Error.ErrFieldCount)
      ↔ (i < 0 ∨ i ≥ (p.fields.length : Int))) ∧
    (0 ≤ i ∧ i < (p.fields.length : Int) →
      ∃ f, p.fields[i.toNat]? = some f ∧ GetField p i = some (f, none)) ∧
    GetField p (-1) = some ([], some Error.ErrFieldCount) ∧
    GetField p (p.fields.length : Int) = some ([], some Error.ErrFieldCount) ∧
    (GetField p i).isSome = true ∧
    (call p (.GetField i)).map Prod.snd = some p := by
  have hin : 0 ≤ i ∧ i < (p.fields.length : Int) →
      ∃ f, p.fields[i.toNat]? = some f ∧ GetField p i = some (f, none) := by
    intro ⟨h0, h1⟩
    have hlt : i.toNat < p.fields.length := by omega
    refine ⟨p.fields[i.toNat], List.getElem?_eq_getElem hlt, ?_⟩
    unfold GetField
    rw [if_neg (by omega)]
    simp [List.getElem?_eq_getElem hlt]
  have hout : (i < 0 ∨ i ≥ (p.fields.length : Int)) →
      GetField p i = some ([], some Error.ErrFieldCount) := by
    intro h
    unfold GetField
    rw [if_pos h]
  refine ⟨⟨?_, hout⟩, hin, ?_, ?_, ?_, ?_⟩
  · intro h
    by_contra hcon
    obtain ⟨f, _, hf⟩ := hin (by omega)
    rw [hf] at h
    simp at h
  · unfold GetField
    rw [if_pos (Or.inl (by omega))]
  · unfold GetField
    rw [if_pos (Or.inr (by omega))]
  · by_cases h : (i < 0 ∨ i ≥ (p.fields.length : Int))
    · rw [hout h]; rfl
    · obtain ⟨f, _, hf⟩ := hin (by omega)
      rw [hf]; rfl
  · by_cases h : (i < 0 ∨ i ≥ (p.fields.length : Int))
    · simp [call, hout h]
    · obtain ⟨f, _, hf⟩ := hin (by omega)
      simp [call, hf]

theorem C3_GetField_witness :
    GetField ⟨"x,y".toList, ["x".toList, "y".toList]⟩ 1 = some ("y".toList, none) :=
  by
    obtain ⟨f, h1, h2⟩ :=
      (C3_GetField ⟨"x,y".toList, ["x".toList, "y".toList]⟩ 1).2.1 (by decide)
    rw [h2]
    have : f = "y".toList := by
      have h3 : (["x".toList, "y".toList] : List GoString)[(1 : Int).toNat]? = some f := h1
      have h4 : (["x".toList, "y".toList] : List GoString)[(1 : Int).toNat]?
          = some "y".toList := by decide
      rw [h4] at h3
      exact (Option.some.inj h3).symm
    rw [this]

end csv

/-! ## Splitting: quoted commas and plain records -/

namespace csv

theorem parseStep_quoteRune (fs : List GoString) (f : GoString) (q : Bool) :
    parseStep ⟨fs, f, q⟩ quoteRune = ⟨fs, f, !q⟩ := by
  simp [parseStep]

theorem parseStep_commaRune (fs : List GoString) (f : GoString) :
    parseStep ⟨fs, f, false⟩ commaRune = ⟨fs ++ [f], [], false⟩ := by
  simp [parseStep, quoteRune_ne_commaRune.symm]

theorem foldl_parseStep_unquoted (fs : List GoString) (f xs : GoString)
    (h : ∀ c ∈ xs, c ≠ quoteRune ∧ c ≠ commaRune) :
    xs.foldl parseStep ⟨fs, f, false⟩ = ⟨fs, f ++ xs, false⟩ :=
  foldl_parseStep_plain _ xs (fun c hc => (h c hc).1) (Or.inr fun c hc => (h c hc).2)

theorem foldl_parseStep_quoted (fs : List GoString) (f xs : GoString)
    (h : ∀ c ∈ xs, c ≠ quoteRune) :
    xs.foldl parseStep ⟨fs, f, true⟩ = ⟨fs, f ++ xs, true⟩ :=
  foldl_parseStep_plain _ xs h (Or.inl rfl)

/-- On runes: a quoted comma does not split and the quotes are stripped: with `a`, `b`, `d`
free of quote runes, `a` and `d` free of commas and `d` non-empty, the line made of `a`, a
comma, `b` in quotes, a comma and `d` splits into exactly `[a, b, d]`. -/
theorem parseFields_quoted_commas (a b d : GoString)
    (ha : ∀ c ∈ a, c ≠ quoteRune ∧ c ≠ commaRune)
    (hb : ∀ c ∈ b, c ≠ quoteRune)
    (hd : ∀ c ∈ d, c ≠ quoteRune ∧ c ≠ commaRune)
    (hne : d ≠ []) :
    parseFields (a ++ [commaRune, quoteRune] ++ b ++ [quoteRune, commaRune] ++ d)
      = [a, b, d] := by
  unfold parseFields
  simp only [List.foldl_append, List.foldl_cons, List.foldl_nil]
  simp only [foldl_parseStep_unquoted _ _ a ha, parseStep_commaRune, parseStep_quoteRune,
    foldl_parseStep_quoted _ _ b hb, foldl_parseStep_unquoted _ _ d hd, Bool.not_false,
    Bool.not_true]
  have hlen : 0 < d.length := List.length_pos.2 hne
  simp [hlen]

theorem parseFields_quoted_commas_example :
    parseFields "a,\"b,c\",d".toList = ["a".toList, "b,c".toList, "d".toList] :=
  parseFields_quoted_commas "a".toList "b,c".toList "d".toList
    (by decide) (by decide) (by decide) (by decide)

theorem joinComma_cons_of_ne_nil (f : GoString) (rest : List GoString) (h : rest ≠ []) :
    joinComma (f :: rest) = f ++ commaRune :: joinComma rest := by
  cases rest with
  | nil => exact absurd rfl h
  | cons g gs => simp [joinComma, List.intercalate, List.intersperse]

theorem foldl_parseStep_joinComma (fs : List GoString) (l : GoString) (acc : List GoString)
    (hfs : ∀ f ∈ fs, ∀ c ∈ f, c ≠ quoteRune ∧ c ≠ commaRune)
    (hl : ∀ c ∈ l, c ≠ quoteRune ∧ c ≠ commaRune) :
    (joinComma (fs ++ [l])).foldl parseStep ⟨acc, [], false⟩ = ⟨acc ++ fs, l, false⟩ := by
  induction fs generalizing acc with
  | nil =>
    have hj : joinComma ([] ++ [l]) = l := by simp [joinComma, List.intercalate]
    rw [hj, foldl_parseStep_unquoted _ _ l hl]
    simp
  | cons f fs ih =>
    have hf := hfs f (List.mem_cons_self _ _)
    rw [List.cons_append, joinComma_cons_of_ne_nil f (fs ++ [l]) (by simp),
      List.foldl_append, List.foldl_cons,
      foldl_parseStep_unquoted _ _ f hf, parseStep_commaRune]
    simp only [List.nil_append]
    rw [ih (acc ++ [f]) fun g hg => hfs g (List.mem_cons_of_mem _ hg)]
    simp

/-- On runes: a non-empty list of non-empty strings free of commas and quote runes, joined
with single commas, splits back into exactly that list. -/
theorem parseFields_joinComma (fs : List GoString) (hne : fs ≠ [])
    (hfs : ∀ f ∈ fs, f ≠ [] ∧ ∀ c ∈ f, c ≠ quoteRune ∧ c ≠ commaRune) :
    parseFields (joinComma fs) = fs := by
  have hsplit := List.dropLast_append_getLast hne
  have hlast := hfs (fs.getLast hne) (List.getLast_mem hne)
  have hinit : ∀ f ∈ fs.dropLast, ∀ c ∈ f, c ≠ quoteRune ∧ c ≠ commaRune :=
    fun f hf => (hfs f (List.dropLast_subset fs hf)).2
  have hrun := foldl_parseStep_joinComma fs.dropLast (fs.getLast hne) [] hinit hlast.2
  rw [hsplit] at hrun
  unfold parseFields
  rw [hrun]
  have hlen : 0 < (fs.getLast hne).length := List.length_pos.2 hlast.1
  simp [hlen, hsplit]

theorem parseFields_joinComma_example :
    parseFields "a,b,c".toList = ["a".toList, "b".toList, "c".toList] :=
  parseFields_joinComma ["a".toList, "b".toList, "c".toList] (by decide) (by decide)

end csv

/-! ## Trimming before the split -/

namespace csv

/-- C7: a line with an even number of quote runes parses with a nil error; the returned text
is the line without its leading and trailing white space (a white-space prefix and suffix are
cut off and what is left neither starts nor ends with white space); the receiver afterwards
stores that text and, as fields, the section 4.2 split of that text. -/
theorem C7_successful_parse (p : StructCSVParser) (line : GoString)
    (heven : line.count quoteRune % 2 = 0) :
    (ReadLine p (.token line)).1.2 = none ∧
    (ReadLine p (.token line)).1.1 = TrimSpace line ∧
    (∃ pre suf : GoString, line = pre ++ (ReadLine p (.token line)).1.1 ++ suf ∧
      (∀ c ∈ pre, isSpace c = true) ∧ (∀ c ∈ suf, isSpace c = true)) ∧
    (∀ c, (ReadLine p (.token line)).1.1.head? = some c → isSpace c = false) ∧
    (∀ c, (ReadLine p (.token line)).1.1.getLast? = some c → isSpace c = false) ∧
    (ReadLine p (.token line)).2.currentLine = (ReadLine p (.token line)).1.1 ∧
    (ReadLine p (.token line)).2.fields = Spec.split (ReadLine p (.token line)).1.1 := by
  rw [ReadLine_of_even p line heven]
  exact ⟨rfl, rfl, ⟨_, _, TrimSpace_decomp line⟩, (TrimSpace_ends line).1,
    (TrimSpace_ends line).2, rfl, parseFields_eq_split _⟩

theorem C7_successful_parse_witness :
    (ReadLine ⟨"x".toList, ["x".toList]⟩ (.token " a,\"b,c\",d ".toList)).1.1
        = "a,\"b,c\",d".toList ∧
    (ReadLine ⟨"x".toList, ["x".toList]⟩ (.token " a,\"b,c\",d ".toList)).2.fields
        = Spec.split "a,\"b,c\",d".toList :=
  have h := C7_successful_parse ⟨"x".toList, ["x".toList]⟩ " a,\"b,c\",d ".toList (by decide)
  ⟨h.2.1.trans (by decide), h.2.2.2.2.2.2.trans (by decide)⟩

end csv

/-! ## The end-of-line rule -/

namespace csv

theorem stateAfter_eq (q : Bool) (s : GoString) :
    stateAfter q s = if s.count quoteRune % 2 = 0 then q else !q := by
  induction s generalizing q with
  | nil => rfl
  | cons c cs ih =>
    rw [stateAfter_cons, ih]
    by_cases hc : c = quoteRune
    · subst hc
      rw [List.count_cons_self]
      by_cases hp : cs.count quoteRune % 2 = 0
      · have : ¬ (cs.count quoteRune + 1) % 2 = 0 := by omega
        simp [hp, this]
      · have : (cs.count quoteRune + 1) % 2 = 0 := by omega
        simp [hp, this]
    · rw [List.count_cons_of_ne (Ne.symm hc)]
      simp [hc]

/-- C8: on a line with an even number of quote runes that ends in a comma, that comma is
unquoted, no field is emitted for the empty text after it: the result is the always-emit
split without its final, empty, element, and the number of fields is the number of unquoted
commas. -/
theorem C8_trailing_empty_dropped (line : GoString)
    (heven : line.count quoteRune % 2 = 0)
    (hlast : line.getLast? = some commaRune) :
    isUnquotedComma (commaRune, stateAfter false line.dropLast) = true ∧
    parseFields line = (Spec.splitAlwaysEmit line).dropLast ∧
    (Spec.splitAlwaysEmit line).getLast? = some [] ∧
    (parseFields line).length = unquotedCommas line := by
  have hne : line ≠ [] := by
    intro h
    rw [h] at hlast
    simp at hlast
  have hl : line.getLast hne = commaRune := by
    rw [List.getLast?_eq_getLast _ hne] at hlast
    exact Option.some.inj hlast
  have hsplit : line.dropLast ++ [commaRune] = line := by
    rw [← hl]
    exact List.dropLast_append_getLast hne
  have hcount : line.dropLast.count quoteRune % 2 = 0 := by
    rw [← hsplit, List.count_append] at heven
    have : [commaRune].count quoteRune = 0 := by decide
    omega
  have hstate : stateAfter false line.dropLast = false := by
    rw [stateAfter_eq, if_pos hcount]
  have hq := foldl_parseStep_inQuotes ⟨[], [], false⟩ line.dropLast
  simp only at hq
  rw [hstate] at hq
  have hrun : line.foldl parseStep ⟨[], [], false⟩
      = ⟨(line.dropLast.foldl parseStep ⟨[], [], false⟩).fields
            ++ [(line.dropLast.foldl parseStep ⟨[], [], false⟩).field], [], false⟩ := by
    conv_lhs => rw [← hsplit]
    rw [List.foldl_append, List.foldl_cons, List.foldl_nil]
    generalize line.dropLast.foldl parseStep ⟨[], [], false⟩ = v at hq ⊢
    obtain ⟨fs, f, q⟩ := v
    simp only at hq
    subst hq
    exact parseStep_commaRune fs f
  have hpf : parseFields line
      = (line.dropLast.foldl parseStep ⟨[], [], false⟩).fields
            ++ [(line.dropLast.foldl parseStep ⟨[], [], false⟩).field] := by
    unfold parseFields
    rw [hrun]
    simp
  refine ⟨?_, ?_, ?_, ?_⟩
  · rw [hstate]
    decide
  · unfold Spec.splitAlwaysEmit
    rw [hpf, runMachine_eq, hrun]
    simp
  · unfold Spec.splitAlwaysEmit
    rw [runMachine_eq, hrun]
    simp
  · rw [← (parseFields_loop line).1, hpf, hrun]

theorem C8_trailing_empty_dropped_witness :
    parseFields "a,b,".toList = ["a".toList, "b".toList] ∧
    Spec.splitAlwaysEmit "a,b,".toList = ["a".toList, "b".toList, []] ∧
    unquotedCommas "a,b,".toList = 2 :=
  have h := C8_trailing_empty_dropped "a,b,".toList (by decide) (by decide)
  ⟨h.2.1.trans (by decide), by decide, h.2.2.2.symm.trans (by decide)⟩

/-! ## Empty records -/

theorem TrimSpace_of_isSpace (line : GoString) (h : ∀ c ∈ line, isSpace c = true) :
    TrimSpace line = [] := by
  unfold TrimSpace
  rw [List.dropWhile_eq_nil_iff.2 h]
  rfl

theorem GetField_of_no_fields (p : StructCSVParser) (h : p.fields = []) (i : Int) :
    GetField p i = some ([], some Error.ErrFieldCount) := by
  unfold GetField
  rw [h, if_pos]
  simp only [List.length_nil, Nat.cast_zero]
  omega

/-- C9: the empty line, and every line made of white space only, parses with a nil error
and leaves a record without fields, whatever the parser held before: `GetNumberOfFields`
is 0 and `GetField(i)` fails with `ErrFieldCount` for every `i`. -/
theorem C9_blank_line (p : StructCSVParser) (line : GoString)
    (hws : ∀ c ∈ line, isSpace c = true) :
    (ReadLine p (.token [])).1 = ([], none) ∧
    GetNumberOfFields (ReadLine p (.token [])).2 = 0 ∧
    (∀ i : Int, GetField (ReadLine p (.token [])).2 i = some ([], some Error.ErrFieldCount)) ∧
    (ReadLine p (.token line)).1 = ([], none) ∧
    (ReadLine p (.token line)).2.fields = [] ∧
    GetNumberOfFields (ReadLine p (.token line)).2 = 0 ∧
    (∀ i : Int, GetField (ReadLine p (.token line)).2 i
      = some ([], some Error.ErrFieldCount)) := by
  have hgen : ∀ l : GoString, (∀ c ∈ l, isSpace c = true) →
      ReadLine p (.token l) = (([], none), ⟨[], []⟩) := by
    intro l hl
    have hc : l.count quoteRune % 2 = 0 := by rw [count_quoteRune_of_isSpace l hl]
    rw [ReadLine_of_even p l hc, TrimSpace_of_isSpace l hl]
    rfl
  rw [hgen [] (by simp), hgen line hws]
  exact ⟨rfl, rfl, fun i => GetField_of_no_fields _ rfl i, rfl, rfl, rfl,
    fun i => GetField_of_no_fields _ rfl i⟩

theorem C9_blank_line_witness :
    (∀ c ∈ " \t ".toList, isSpace c = true) ∧
    GetNumberOfFields (ReadLine ⟨"x,y".toList, ["x".toList, "y".toList]⟩
      (.token " \t ".toList)).2 = 0 :=
  ⟨by decide,
   (C9_blank_line ⟨"x,y".toList, ["x".toList, "y".toList]⟩ " \t ".toList (by decide)).2.2.2.2.2.1⟩

theorem ReadLine_state_of_error (p : StructCSVParser) (r : ScanOutcome)
    (h : (ReadLine p r).1.2 ≠ none) : (ReadLine p r).2 = p := by
  cases r with
  | token line =>
    cases hq : containsMismatchedQuotes line with
    | true => simp [ReadLine, hq]
    | false => simp [ReadLine, hq] at h
  | failed err => rfl
  | eof => rfl

theorem ReadLines_state_of_errors (p : StructCSVParser) (rs : List ScanOutcome)
    (h : ∀ out ∈ (ReadLines p rs).1, out.2 ≠ none) : (ReadLines p rs).2 = p := by
  induction rs generalizing p with
  | nil => rfl
  | cons r rs ih =>
    simp only [ReadLines, List.mem_cons, forall_eq_or_imp] at h ⊢
    have h1 := ReadLine_state_of_error p r h.1
    rw [h1] at h ⊢
    exact ih p h.2

/-- C10: before any successful parse the record is empty: on the zero-value parser, and
still after any sequence of `ReadLine` calls that all failed with `ErrQuote`,
`GetNumberOfFields` is 0 and `GetField(i)` fails with `ErrFieldCount` for every `i`. -/
theorem C10_empty_before_success (rs : List ScanOutcome)
    (hfail : ∀ out ∈ (ReadLines StructCSVParser.zero rs).1, out.2 = some Error.ErrQuote) :
    GetNumberOfFields StructCSVParser.zero = 0 ∧
    (∀ i : Int, GetField StructCSVParser.zero i = some ([], some Error.ErrFieldCount)) ∧
    GetNumberOfFields (ReadLines StructCSVParser.zero rs).2 = 0 ∧
    (∀ i : Int, GetField (ReadLines StructCSVParser.zero rs).2 i
      = some ([], some Error.ErrFieldCount)) := by
  have hst : (ReadLines StructCSVParser.zero rs).2 = StructCSVParser.zero :=
    ReadLines_state_of_errors _ rs fun out hout => by
      rw [hfail out hout]
      simp
  rw [hst]
  exact ⟨rfl, fun i => GetField_of_no_fields _ rfl i, rfl,
    fun i => GetField_of_no_fields _ rfl i⟩

theorem C10_empty_before_success_witness :
    (∀ out ∈ (ReadLines StructCSVParser.zero
        [.token "a\"b".toList, .token "\"".toList]).1, out.2 = some Error.ErrQuote) ∧
    GetNumberOfFields (ReadLines StructCSVParser.zero
        [.token "a\"b".toList, .token "\"".toList]).2 = 0 :=
  ⟨by decide,
   (C10_empty_before_success [.token "a\"b".toList, .token "\"".toList] (by decide)).2.2.1⟩

end csv

/-! ## The record is replaced wholesale -/

namespace csv

/-- C11: a successful parse carries nothing over from the previous record: for any two
parser states and any line with an even number of quote runes, `ReadLine` returns the same
text and error and leaves the same state (stored line and fields). -/
theorem C11_no_carry_over (s1 s2 : StructCSVParser) (line : GoString)
    (heven : line.count quoteRune % 2 = 0) :
    (ReadLine s1 (.token line)).1 = (ReadLine s2 (.token line)).1 ∧
    (ReadLine s1 (.token line)).2 = (ReadLine s2 (.token line)).2 ∧
    (ReadLine s1 (.token line)).2.currentLine = TrimSpace line ∧
    (ReadLine s1 (.token line)).2.fields = parseFields (TrimSpace line) := by
  rw [ReadLine_of_even s1 line heven, ReadLine_of_even s2 line heven]
  exact ⟨rfl, rfl, rfl, rfl⟩

theorem C11_no_carry_over_witness :
    ("p,q".toList.count quoteRune % 2 = 0) ∧
    (ReadLine ⟨"x,y,z".toList, ["x".toList, "y".toList, "z".toList]⟩
        (.token "p,q".toList)).2
      = (ReadLine StructCSVParser.zero (.token "p,q".toList)).2 ∧
    (ReadLine ⟨"x,y,z".toList, ["x".toList, "y".toList, "z".toList]⟩
        (.token "p,q".toList)).2.fields = ["p".toList, "q".toList] :=
  have h := C11_no_carry_over ⟨"x,y,z".toList, ["x".toList, "y".toList, "z".toList]⟩
    StructCSVParser.zero "p,q".toList (by decide)
  ⟨by decide, h.2.1, h.2.2.2.trans (by decide)⟩

/-! ## The state invariant -/

/-- Every call either leaves the receiver as it was or is a `ReadLine` that parsed a line
with balanced quotes. -/
theorem call_frame (p p1 : StructCSVParser) (c : Call) (r : Ret)
    (h : call p c = some (r, p1)) :
    p1 = p ∨ ∃ line, c = .ReadLine (.token line) ∧ containsMismatchedQuotes line = false ∧
      r = .text (TrimSpace line) none ∧
      p1 = ⟨TrimSpace line, parseFields (TrimSpace line)⟩ := by
  cases c with
  | ReadLine o =>
    simp only [call, Option.some.injEq, Prod.mk.injEq] at h
    obtain ⟨hr, hp⟩ := h
    cases o with
    | token line =>
      cases hq : containsMismatchedQuotes line with
      | true =>
        left
        rw [← hp]
        simp [ReadLine, hq]
      | false =>
        right
        refine ⟨line, rfl, hq, ?_, ?_⟩
        · rw [← hr]
          simp [ReadLine, hq]
        · rw [← hp]
          simp [ReadLine, hq]
    | failed err => exact Or.inl hp.symm
    | eof => exact Or.inl hp.symm
  | GetField n =>
    left
    simp only [call, Option.map_eq_some', Prod.mk.injEq] at h
    obtain ⟨_, _, _, hp⟩ := h
    exact hp.symm
  | GetNumberOfFields =>
    left
    simp only [call, Option.some.injEq, Prod.mk.injEq] at h
    exact h.2.symm

theorem call_isSome (p : StructCSVParser) (c : Call) : ∃ r p1, call p c = some (r, p1) := by
  cases c with
  | ReadLine o => exact ⟨_, _, rfl⟩
  | GetField n =>
    by_cases h : n < 0 ∨ n ≥ (p.fields.length : Int)
    · exact ⟨_, _, by simp [call, GetField, h]; exact ⟨rfl, rfl⟩⟩
    · have hlt : n.toNat < p.fields.length := by omega
      refine ⟨.text p.fields[n.toNat] none, p, ?_⟩
      simp [call, GetField, h, List.getElem?_eq_getElem hlt]
  | GetNumberOfFields => exact ⟨_, _, rfl⟩

theorem call_preserves_fieldsDerived (p p1 : StructCSVParser) (c : Call) (r : Ret)
    (hinv : fieldsDerived p) (h : call p c = some (r, p1)) : fieldsDerived p1 := by
  rcases call_frame p p1 c r h with hp | ⟨line, _, _, _, hp⟩
  · rw [hp]
    exact hinv
  · rw [hp]
    unfold fieldsDerived
    simp only [TrimSpace_idem]

theorem runCalls_fieldsDerived (p : StructCSVParser) (cs : List Call)
    (hinv : fieldsDerived p) :
    ∃ rs p2, runCalls p cs = some (rs, p2) ∧ fieldsDerived p2 := by
  induction cs generalizing p with
  | nil => exact ⟨[], p, rfl, hinv⟩
  | cons c cs ih =>
    obtain ⟨r, p1, hc⟩ := call_isSome p c
    obtain ⟨rs, p2, hrun, hinv2⟩ := ih p1 (call_preserves_fieldsDerived p p1 c r hinv hc)
    exact ⟨r :: rs, p2, by simp [runCalls, hc, hrun], hinv2⟩

end csv

namespace csv

/-- C12: state invariant: every sequence of `ReadLine`, `GetField` and `GetNumberOfFields`
calls on the zero-value parser runs without panic and ends in a state whose fields are the
section 4.2 split (`parseFields`) of the stored line after trimming; and a call that changes
the fields is a `ReadLine` that parsed a line with an even number of quote runes. -/
theorem C12_state_invariant (cs : List Call) :
    (∃ rs p, runCalls StructCSVParser.zero cs = some (rs, p) ∧
      p.fields = parseFields (TrimSpace p.currentLine) ∧
      p.fields = Spec.split (TrimSpace p.currentLine)) ∧
    (∀ (p p1 : StructCSVParser) (c : Call) (r : Ret), call p c = some (r, p1) →
      p1.fields ≠ p.fields →
      ∃ line, c = .ReadLine (.token line) ∧ line.count quoteRune % 2 = 0 ∧
        r = .text (TrimSpace line) none) := by
  constructor
  · obtain ⟨rs, p, hrun, hinv⟩ :=
      runCalls_fieldsDerived StructCSVParser.zero cs (by decide)
    refine ⟨rs, p, hrun, hinv, ?_⟩
    rw [← parseFields_eq_split]
    exact hinv
  · intro p p1 c r hc hne
    rcases call_frame p p1 c r hc with hp | ⟨line, h1, h2, h3, _⟩
    · rw [hp] at hne
      exact absurd rfl hne
    · exact ⟨line, h1, (containsMismatchedQuotes_eq_false_iff line).1 h2, h3⟩

theorem C12_state_invariant_witness :
    ∃ rs p, runCalls StructCSVParser.zero
        [.ReadLine (.token " a,b ".toList), .GetField 0, .ReadLine (.token "c\"".toList),
         .ReadLine .eof, .GetNumberOfFields] = some (rs, p) ∧
      p.fields = parseFields (TrimSpace p.currentLine) ∧
      p.fields = Spec.split (TrimSpace p.currentLine) :=
  (C12_state_invariant
    [.ReadLine (.token " a,b ".toList), .GetField 0, .ReadLine (.token "c\"".toList),
     .ReadLine .eof, .GetNumberOfFields]).1

/-! ## Trimming and quoted content -/

theorem readStates_of_isSpace (q : Bool) (ws : GoString) (h : ∀ c ∈ ws, isSpace c = true) :
    readStates q ws = ws.map fun c => (c, q) := by
  induction ws with
  | nil => rfl
  | cons c cs ih =>
    have hc : c ≠ quoteRune := ne_quoteRune_of_isSpace (h c (List.mem_cons_self _ _))
    simp only [readStates, hc, if_false, List.map_cons]
    rw [ih fun x hx => h x (List.mem_cons_of_mem _ hx)]

theorem readStates_trimmed (pre t suf : GoString)
    (hpre : ∀ c ∈ pre, isSpace c = true) (hsuf : ∀ c ∈ suf, isSpace c = true)
    (heven : (pre ++ t ++ suf).count quoteRune % 2 = 0) :
    readStates false (pre ++ t ++ suf)
      = (pre.map fun c => (c, false)) ++ readStates false t ++ suf.map fun c => (c, false) := by
  have hcount : (pre ++ t).count quoteRune % 2 = 0 := by
    rw [List.count_append, count_quoteRune_of_isSpace suf hsuf] at heven
    exact heven
  have hstate : stateAfter false (pre ++ t) = false := by
    rw [stateAfter_eq, if_pos hcount]
  rw [readStates_append, hstate, readStates_append, stateAfter_of_isSpace _ _ hpre,
    readStates_of_isSpace _ _ hpre, readStates_of_isSpace _ _ hsuf]

theorem parseStep_inQuotes (v : SplitVars) (c : Char) :
    (parseStep v c).inQuotes = if c = quoteRune then !v.inQuotes else v.inQuotes := by
  unfold parseStep
  by_cases hc : c = quoteRune
  · simp [hc]
  · by_cases hb : (c = commaRune && !v.inQuotes) = true
    · simp only [hc, if_false, hb, if_true]
    · simp [hc, hb]

/-- The trace of the source loop is the trace of the section 4.2 vocabulary. -/
theorem loopStates_eq_readStates (v : SplitVars) (xs : GoString) :
    loopStates v xs = readStates v.inQuotes xs := by
  induction xs generalizing v with
  | nil => rfl
  | cons c cs ih =>
    simp only [loopStates, readStates]
    rw [ih, parseStep_inQuotes]

/-- C13: trimming never touches quoted content: on a line with an even number of quote
runes, the white space that trimming removes in front and at the end is read by the loop of
`parseFields`, run on the untrimmed line, while its variable `inQuotes` is false; so the
runes that loop reads while `inQuotes` is true are the same for the line and for its trimmed
form.  The same holds of the trace written with the vocabulary of section 4.2. -/
theorem C13_trim_outside_quotes (line : GoString)
    (heven : line.count quoteRune % 2 = 0) :
    line = line.takeWhile isSpace ++ TrimSpace line
            ++ (line.dropWhile isSpace).rtakeWhile isSpace ∧
    loopStates ⟨[], [], false⟩ line
      = ((line.takeWhile isSpace).map fun c => (c, false))
          ++ loopStates ⟨[], [], false⟩ (TrimSpace line)
          ++ (((line.dropWhile isSpace).rtakeWhile isSpace).map fun c => (c, false)) ∧
    loopQuotedRunes line = loopQuotedRunes (TrimSpace line) ∧
    readStates false line
      = ((line.takeWhile isSpace).map fun c => (c, false))
          ++ readStates false (TrimSpace line)
          ++ (((line.dropWhile isSpace).rtakeWhile isSpace).map fun c => (c, false)) ∧
    quotedRunes line = quotedRunes (TrimSpace line) := by
  obtain ⟨h1, h2, h3⟩ := TrimSpace_decomp line
  have hrs := readStates_trimmed _ (TrimSpace line) _ h2 h3 (by rw [← h1]; exact heven)
  rw [← h1] at hrs
  have hq : quotedRunes line = quotedRunes (TrimSpace line) := by
    unfold quotedRunes
    rw [hrs]
    simp [List.filter_append, List.filter_map, Function.comp_def]
  refine ⟨h1, ?_, ?_, hrs, hq⟩
  · rw [loopStates_eq_readStates, loopStates_eq_readStates]
    exact hrs
  · unfold loopQuotedRunes
    rw [loopStates_eq_readStates, loopStates_eq_readStates]
    exact hq

theorem C13_trim_outside_quotes_witness :
    (" \"a ,b\" ,c  ".toList.count quoteRune % 2 = 0) ∧
    loopQuotedRunes " \"a ,b\" ,c  ".toList = loopQuotedRunes "\"a ,b\" ,c".toList ∧
    loopQuotedRunes "\"a ,b\" ,c".toList = "a ,b\"".toList ∧
    loopStates ⟨[], [], false⟩ " \"a\" ".toList
      = [(' ', false), (quoteRune, false), ('a', true), (quoteRune, true), (' ', false)] :=
  have h := C13_trim_outside_quotes " \"a ,b\" ,c  ".toList (by decide)
  ⟨by decide, h.2.2.1.trans (by decide), by decide, by decide⟩

end csv

/-! ## What the fields contain -/

namespace csv

theorem parseStep_no_quoteRune (v : SplitVars) (c : Char)
    (h1 : ∀ f ∈ v.fields, quoteRune ∉ f) (h2 : quoteRune ∉ v.field) :
    (∀ f ∈ (parseStep v c).fields, quoteRune ∉ f) ∧ quoteRune ∉ (parseStep v c).field := by
  unfold parseStep
  by_cases hc : c = quoteRune
  · simp only [hc, if_true]
    exact ⟨h1, h2⟩
  · by_cases hb : (c = commaRune && !v.inQuotes) = true
    · simp only [hc, if_false, hb, if_true]
      refine ⟨?_, by simp⟩
      intro f hf
      rcases List.mem_append.1 hf with h | h
      · exact h1 f h
      · rw [List.mem_singleton.1 h]
        exact h2
    · simp only [hc, if_false, hb]
      refine ⟨h1, ?_⟩
      intro hmem
      rcases List.mem_append.1 hmem with h | h
      · exact h2 h
      · exact hc (List.mem_singleton.1 h).symm

theorem foldl_parseStep_no_quoteRune (xs : GoString) (v : SplitVars)
    (h1 : ∀ f ∈ v.fields, quoteRune ∉ f) (h2 : quoteRune ∉ v.field) :
    (∀ f ∈ (xs.foldl parseStep v).fields, quoteRune ∉ f) ∧
    quoteRune ∉ (xs.foldl parseStep v).field := by
  induction xs generalizing v with
  | nil => exact ⟨h1, h2⟩
  | cons c cs ih =>
    rw [List.foldl_cons]
    exact ih _ (parseStep_no_quoteRune v c h1 h2).1 (parseStep_no_quoteRune v c h1 h2).2

theorem parseFields_no_quoteRune (line f : GoString) (hf : f ∈ parseFields line) :
    quoteRune ∉ f := by
  obtain ⟨h1, h2⟩ := foldl_parseStep_no_quoteRune line ⟨[], [], false⟩ (by simp) (by simp)
  unfold parseFields at hf
  simp only at hf
  split at hf
  · rcases List.mem_append.1 hf with h | h
    · exact h1 f h
    · rw [List.mem_singleton.1 h]
      exact h2
  · exact h1 f hf

theorem GetField_mem (p : StructCSVParser) (i : Int) (f : GoString) (e : Option Error)
    (h : GetField p i = some (f, e)) : f = [] ∨ f ∈ p.fields := by
  unfold GetField at h
  split at h
  · left
    simp only [Option.some.injEq, Prod.mk.injEq] at h
    exact h.1.symm
  · right
    simp only [Option.map_eq_some', Prod.mk.injEq] at h
    obtain ⟨g, hg, hfg, _⟩ := h
    rw [← hfg]
    exact List.get?_mem hg

/-- C14: quote runes are stripped, never kept as data: no field `parseFields` produces
contains a quote rune, whatever the quote count of the line; hence in every state reached
from the zero-value parser by calls of the interface, no text `GetField` returns contains a
quote rune. -/
theorem C14_no_quote_in_fields :
    (∀ (line f : GoString), f ∈ parseFields line → quoteRune ∉ f) ∧
    (∀ (cs : List Call) (rs : List Ret) (p : StructCSVParser) (i : Int) (f : GoString)
        (e : Option Error),
      runCalls StructCSVParser.zero cs = some (rs, p) → GetField p i = some (f, e) →
      quoteRune ∉ f) := by
  refine ⟨parseFields_no_quoteRune, ?_⟩
  intro cs rs p i f e hrun hget
  obtain ⟨rs2, p2, hrun2, hinv⟩ :=
    runCalls_fieldsDerived StructCSVParser.zero cs (by decide)
  rw [hrun] at hrun2
  simp only [Option.some.injEq, Prod.mk.injEq] at hrun2
  rw [← hrun2.2] at hinv
  rcases GetField_mem p i f e hget with h | h
  · rw [h]
    simp
  · unfold fieldsDerived at hinv
    rw [hinv] at h
    exact parseFields_no_quoteRune _ f h

theorem C14_no_quote_in_fields_witness :
    "b,c".toList ∈ parseFields "a,\"b,c\",\"d".toList ∧ quoteRune ∉ "b,c".toList :=
  ⟨by decide,
   C14_no_quote_in_fields.1 "a,\"b,c\",\"d".toList "b,c".toList (by decide)⟩

/-- C15: exact field count: the number of fields `parseFields` produces is the number of
unquoted commas, plus one exactly when the text after the last unquoted comma (the whole
line when there is none), quote runes removed, is not empty.  So `a,,` gives `[a, ""]` and
`,` gives `[""]`, while `a,` gives `[a]` and a lone pair of quotes gives no field. -/
theorem C15_exact_field_count (line : GoString) :
    (parseFields line).length
      = unquotedCommas line + (if textAfterLastUnquotedComma line = [] then 0 else 1) ∧
    ((parseFields line).length = unquotedCommas line + 1
      ↔ textAfterLastUnquotedComma line ≠ []) ∧
    parseFields "a,,".toList = ["a".toList, []] ∧
    parseFields ",".toList = [[]] ∧
    parseFields "a,".toList = ["a".toList] ∧
    parseFields "\"\"".toList = [] := by
  have h := parseFields_length line
  refine ⟨h, ?_, by decide, by decide, by decide, by decide⟩
  rw [h]
  by_cases ht : textAfterLastUnquotedComma line = []
  · simp [ht]
  · simp [ht]

theorem C15_exact_field_count_witness :
    (parseFields "x,\"y,\",".toList).length = 2 ∧ unquotedCommas "x,\"y,\",".toList = 2 ∧
    textAfterLastUnquotedComma "x,\"y,\",".toList = [] :=
  have h := (C15_exact_field_count "x,\"y,\",".toList).1
  ⟨h.trans (by decide), by decide, by decide⟩

end csv

namespace csv

/-- What the loop of `parseFields` has written after reading a whole line: the closed fields
followed by the buffer are the line without its quote runes and unquoted commas. -/
theorem parseFields_loop_content (xs : GoString) :
    (xs.foldl parseStep ⟨[], [], false⟩).fields.flatten
        ++ (xs.foldl parseStep ⟨[], [], false⟩).field
      = withoutQuotesAndUnquotedCommas xs := by
  induction xs using List.reverseRecOn with
  | nil => rfl
  | append_singleton xs c ih =>
    have hq := foldl_parseStep_inQuotes ⟨[], [], false⟩ xs
    simp only at hq
    rw [List.foldl_append, List.foldl_cons, List.foldl_nil]
    unfold withoutQuotesAndUnquotedCommas at *
    rw [readStates_concat, List.filter_append, List.map_append, ← ih]
    generalize xs.foldl parseStep ⟨[], [], false⟩ = v at *
    have hu : isUnquotedComma (c, stateAfter false xs) = (c = commaRune && !v.inQuotes) := by
      simp [isUnquotedComma, hq]
    unfold parseStep
    by_cases hc : c = quoteRune
    · simp [hc]
    · by_cases h2 : (c = commaRune && !v.inQuotes) = true
      · rw [h2] at hu
        simp only [hc, if_false, h2, if_true]
        simp [hu, hc]
      · have h2f : (decide (c = commaRune) && !v.inQuotes) = false := by simpa using h2
        rw [h2f] at hu
        simp only [hc, if_false, h2f, Bool.false_eq_true]
        simp [hu, hc]

/-- On runes: the fields `parseFields` produces, concatenated in order, are the runes of the
line with every quote rune and every unquoted comma removed; quoted commas are kept, as in
`a,"b,c",d`, whose fields concatenate to `ab,cd`. -/
theorem parseFields_flatten (line : GoString) :
    (parseFields line).flatten = withoutQuotesAndUnquotedCommas line ∧
    withoutQuotesAndUnquotedCommas "a,\"b,c\",d".toList = "ab,cd".toList := by
  refine ⟨?_, by decide⟩
  rw [← parseFields_loop_content]
  unfold parseFields
  simp only
  split
  · simp
  · rename_i h
    have hnil : (line.foldl parseStep ⟨[], [], false⟩).field = [] := by
      cases hf : (line.foldl parseStep ⟨[], [], false⟩).field with
      | nil => rfl
      | cons a t =>
        rw [hf] at h
        simp at h
    rw [hnil]
    simp

end csv

/-! ## The two copies of the parser -/

namespace csv

theorem main_parseStep_eq (v : SplitVars) (c : Char) :
    main.parseStep ⟨v.fields, v.field, v.inQuotes⟩ c
      = ⟨(parseStep v c).fields, (parseStep v c).field, (parseStep v c).inQuotes⟩ := by
  unfold main.parseStep parseStep
  by_cases hc : c = quoteRune
  · simp [hc]
  · by_cases hb : (c = commaRune && !v.inQuotes) = true
    · simp only [hc, if_false, hb, if_true]
    · simp [hc, hb]

theorem main_foldl_parseStep_eq (xs : GoString) (v : SplitVars) :
    xs.foldl main.parseStep ⟨v.fields, v.field, v.inQuotes⟩
      = ⟨(xs.foldl parseStep v).fields, (xs.foldl parseStep v).field,
         (xs.foldl parseStep v).inQuotes⟩ := by
  induction xs generalizing v with
  | nil => rfl
  | cons c cs ih => rw [List.foldl_cons, List.foldl_cons, main_parseStep_eq, ih]

theorem main_parseFields_eq (line : GoString) : main.parseFields line = parseFields line := by
  unfold main.parseFields parseFields
  have h := main_foldl_parseStep_eq line ⟨[], [], false⟩
  simp only at h
  rw [h]

theorem main_containsMismatchedQuotes_eq (line : GoString) :
    main.containsMismatchedQuotes line = containsMismatchedQuotes line := rfl

/-- C17: the two copies of the parser behave alike: `containsMismatchedQuotes` and
`parseFields` of package `main` return what those of package `csv` return, and on
corresponding states, scan outcomes and indexes `ReadLine`, `GetField` and
`GetNumberOfFields` of `CSVParserImpl` return the corresponding values and leave the
corresponding state; every `CSVParserImpl` state and scan outcome has a counterpart. -/
theorem C17_copies_agree (p : StructCSVParser) (r : ScanOutcome) (line : GoString)
    (i : Int) :
    main.containsMismatchedQuotes line = containsMismatchedQuotes line ∧
    main.parseFields line = parseFields line ∧
    main.ReadLine (main.ofCsvParser p) (main.ofCsvOutcome r)
      = (((ReadLine p r).1.1, (ReadLine p r).1.2.map main.ofCsvError),
         main.ofCsvParser (ReadLine p r).2) ∧
    main.GetField (main.ofCsvParser p) i
      = (GetField p i).map (fun x => (x.1, x.2.map main.ofCsvError)) ∧
    main.GetNumberOfFields (main.ofCsvParser p) = GetNumberOfFields p ∧
    (∀ q : main.CSVParserImpl, ∃ p0, main.ofCsvParser p0 = q) ∧
    (∀ o : main.ScanOutcome, ∃ r0, main.ofCsvOutcome r0 = o) := by
  refine ⟨rfl, main_parseFields_eq line, ?_, ?_, rfl, ?_, ?_⟩
  · cases r with
    | token l =>
      simp only [main.ofCsvOutcome, main.ReadLine, ReadLine, main_containsMismatchedQuotes_eq,
        main_parseFields_eq]
      cases containsMismatchedQuotes l <;> rfl
    | failed err => rfl
    | eof => rfl
  · unfold main.GetField GetField main.ofCsvParser
    simp only
    split
    · rfl
    · cases p.fields.get? i.toNat <;> rfl
  · intro q
    exact ⟨⟨q.currentLine, q.fields⟩, rfl⟩
  · intro o
    cases o with
    | token l => exact ⟨.token l, rfl⟩
    | failed err =>
      cases err with
      | ErrQuote => exact ⟨.failed .ErrQuote, rfl⟩
      | ErrFieldCount => exact ⟨.failed .ErrFieldCount, rfl⟩
      | scanner text => exact ⟨.failed (.scanner text), rfl⟩
    | eof => exact ⟨.eof, rfl⟩

/-! ## The error values -/

/-- C18, counterexample: the text of `ErrQuote` in the source is not the text the
specification quotes. -/
theorem C18_counterexample :
    ¬ (Error.Error .ErrQuote = "excess or missing quote in quoted field") := by
  decide

/-- C18, amended: the text of `ErrQuote` is `excess or missing " in quoted-field` (with a
quote character and a hyphen), the text of `ErrFieldCount` is `wrong number of fields`, and
the two are distinct values; the same holds for the copies in package `main`. -/
theorem C18_error_texts :
    Error.Error .ErrQuote = "excess or missing \" in quoted-field" ∧
    Error.Error .ErrFieldCount = "wrong number of fields" ∧
    Error.ErrQuote ≠ Error.ErrFieldCount ∧
    main.Error.Error .ErrQuote = "excess or missing \" in quoted-field" ∧
    main.Error.Error .ErrFieldCount = "wrong number of fields" ∧
    main.Error.ErrQuote ≠ main.Error.ErrFieldCount := by
  refine ⟨rfl, rfl, ?_, rfl, rfl, ?_⟩
  · intro h
    cases h
  · intro h
    cases h

/-! ## End of input -/

/-- C19: at end of input `ReadLine` returns the empty string and a nil error and leaves the
receiver as it was; the returned values are those of a successfully parsed blank line, but a
blank line resets the record to no fields while end of input keeps the previous record. -/
theorem C19_end_of_input (p : StructCSVParser) :
    (ReadLine p .eof).1 = ([], none) ∧
    (ReadLine p .eof).2 = p ∧
    (ReadLine p (.token [])).1 = (ReadLine p .eof).1 ∧
    (ReadLine p (.token [])).2 = ⟨[], []⟩ ∧
    GetNumberOfFields
      (ReadLine ⟨"x,y".toList, ["x".toList, "y".toList]⟩ .eof).2 = 2 ∧
    GetNumberOfFields
      (ReadLine ⟨"x,y".toList, ["x".toList, "y".toList]⟩ (.token [])).2 = 0 ∧
    main.ReadLine (main.ofCsvParser p) .eof = (([], none), main.ofCsvParser p) := by
  have hb : ReadLine p (.token []) = (([], none), ⟨[], []⟩) := by
    rw [ReadLine_of_even p [] (by decide)]
    rfl
  rw [hb]
  exact ⟨rfl, rfl, rfl, rfl, by decide, by decide, rfl⟩

end csv

/-! ## Decoding and encoding runes -/

namespace csv

theorem toByte_val (n : Nat) : (toByte n).val = n % 256 := rfl

theorem char_range (c : Char) :
    c.toNat < 0xD800 ∨ (0xDFFF < c.toNat ∧ c.toNat < 0x110000) := by
  have := c.valid
  simpa [UInt32.isValidChar, Nat.isValidChar, Char.toNat] using this

theorem decodeRune_one (s0 : Fin 256) (rest : GoBytes) (h0 : s0.val < 0x80) :
    decodeRune (s0 :: rest) = (Char.ofNat s0.val, 1) := by
  simp [decodeRune, h0]

theorem decodeRune_two (s0 s1 : Fin 256) (rest : GoBytes)
    (h0 : 0xC2 ≤ s0.val ∧ s0.val ≤ 0xDF) (h1 : 0x80 ≤ s1.val ∧ s1.val ≤ 0xBF) :
    decodeRune (s0 :: s1 :: rest) = (Char.ofNat (s0.val % 32 * 64 + s1.val % 64), 2) := by
  have a1 : ¬ s0.val < 0x80 := by omega
  have a2 : ¬ (s0.val < 0xC2 ∨ 0xF4 < s0.val) := by omega
  have a3 : s0.val < 0xE0 := by omega
  have a4 : ¬ s0.val = 0xE0 := by omega
  have a5 : ¬ s0.val = 0xF0 := by omega
  have a6 : ¬ s0.val = 0xED := by omega
  have a7 : ¬ s0.val = 0xF4 := by omega
  have a8 : ¬ (s1.val < 0x80 ∨ 0xBF < s1.val) := by omega
  simp only [decodeRune, a1, a2, a3, a4, a5, a6, a7, a8, if_true, if_false, List.length_cons]
  rw [if_neg (by omega), if_pos (by omega)]

theorem decodeRune_three (s0 s1 s2 : Fin 256) (rest : GoBytes)
    (h0 : 0xE0 ≤ s0.val ∧ s0.val ≤ 0xEF)
    (h1 : 0x80 ≤ s1.val ∧ s1.val ≤ 0xBF)
    (hlo : s0.val = 0xE0 → 0xA0 ≤ s1.val) (hhi : s0.val = 0xED → s1.val ≤ 0x9F)
    (h2 : 0x80 ≤ s2.val ∧ s2.val ≤ 0xBF) :
    decodeRune (s0 :: s1 :: s2 :: rest)
      = (Char.ofNat (s0.val % 16 * 4096 + s1.val % 64 * 64 + s2.val % 64), 3) := by
  have a1 : ¬ s0.val < 0x80 := by omega
  have a2 : ¬ (s0.val < 0xC2 ∨ 0xF4 < s0.val) := by omega
  have a3 : ¬ s0.val < 0xE0 := by omega
  have a3b : s0.val < 0xF0 := by omega
  have a5 : ¬ s0.val = 0xF0 := by omega
  have a7 : ¬ s0.val = 0xF4 := by omega
  have a9 : ¬ (s2.val < 0x80 ∨ 0xBF < s2.val) := by omega
  simp only [decodeRune, a1, a2, a3, a3b, a5, a7, a9, if_true, if_false, List.length_cons]
  rw [if_neg (by omega), if_neg, if_neg (by omega), if_pos (by omega)]
  by_cases e0 : s0.val = 0xE0
  · have := hlo e0
    rw [e0]
    norm_num
    omega
  · by_cases e1 : s0.val = 0xED
    · have := hhi e1
      rw [e1]
      norm_num
      omega
    · simp only [e0, e1, if_false]
      omega

theorem decodeRune_four (s0 s1 s2 s3 : Fin 256) (rest : GoBytes)
    (h0 : 0xF0 ≤ s0.val ∧ s0.val ≤ 0xF4)
    (h1 : 0x80 ≤ s1.val ∧ s1.val ≤ 0xBF)
    (hlo : s0.val = 0xF0 → 0x90 ≤ s1.val) (hhi : s0.val = 0xF4 → s1.val ≤ 0x8F)
    (h2 : 0x80 ≤ s2.val ∧ s2.val ≤ 0xBF) (h3 : 0x80 ≤ s3.val ∧ s3.val ≤ 0xBF) :
    decodeRune (s0 :: s1 :: s2 :: s3 :: rest)
      = (Char.ofNat (s0.val % 8 * 262144 + s1.val % 64 * 4096 + s2.val % 64 * 64
          + s3.val % 64), 4) := by
  have a1 : ¬ s0.val < 0x80 := by omega
  have a2 : ¬ (s0.val < 0xC2 ∨ 0xF4 < s0.val) := by omega
  have a3 : ¬ s0.val < 0xE0 := by omega
  have a3b : ¬ s0.val < 0xF0 := by omega
  have a4 : ¬ s0.val = 0xE0 := by omega
  have a6 : ¬ s0.val = 0xED := by omega
  have a9 : ¬ (s2.val < 0x80 ∨ 0xBF < s2.val) := by omega
  have a10 : ¬ (s3.val < 0x80 ∨ 0xBF < s3.val) := by omega
  simp only [decodeRune, a1, a2, a3, a3b, a4, a6, a9, a10, if_true, if_false, List.length_cons]
  rw [if_neg (by omega), if_neg, if_neg (by omega), if_neg (by omega)]
  by_cases e0 : s0.val = 0xF0
  · have := hlo e0
    rw [e0]
    norm_num
    omega
  · by_cases e1 : s0.val = 0xF4
    · have := hhi e1
      rw [e1]
      norm_num
      omega
    · simp only [e0, e1, if_false]
      omega

/-- Decoding the encoding of a rune gives the rune back, whatever bytes follow. -/
theorem decodeRune_encodeRune (c : Char) (rest : GoBytes) :
    decodeRune (encodeRune c ++ rest) = (c, (encodeRune c).length) := by
  have hr := char_range c
  have hc : Char.ofNat c.toNat = c := Char.ofNat_toNat c
  unfold encodeRune
  generalize c.toNat = r at *
  by_cases h1 : r ≤ 0x7F
  · rw [if_pos h1]
    simp only [List.cons_append, List.nil_append, List.length_singleton]
    rw [decodeRune_one _ _ (by rw [toByte_val]; omega), toByte_val]
    have : r % 256 = r := by omega
    rw [this, hc]
  · rw [if_neg h1]
    by_cases h2 : r ≤ 0x7FF
    · rw [if_pos h2]
      simp only [List.cons_append, List.nil_append, List.length_cons, List.length_nil]
      rw [decodeRune_two _ _ _ (by rw [toByte_val]; omega) (by rw [toByte_val]; omega)]
      simp only [toByte_val]
      have : (192 + r / 64) % 256 % 32 * 64 + (128 + r % 64) % 256 % 64 = r := by omega
      rw [this, hc]
    · rw [if_neg h2]
      by_cases h3 : r ≤ 0xFFFF
      · rw [if_pos h3]
        simp only [List.cons_append, List.nil_append, List.length_cons, List.length_nil]
        rw [decodeRune_three _ _ _ _ (by rw [toByte_val]; omega) (by rw [toByte_val]; omega)
          (by rw [toByte_val, toByte_val]; omega) (by rw [toByte_val, toByte_val]; omega)
          (by rw [toByte_val]; omega)]
        simp only [toByte_val]
        have : (224 + r / 4096) % 256 % 16 * 4096 + (128 + r / 64 % 64) % 256 % 64 * 64
            + (128 + r % 64) % 256 % 64 = r := by omega
        rw [this, hc]
      · rw [if_neg h3]
        simp only [List.cons_append, List.nil_append, List.length_cons, List.length_nil]
        rw [decodeRune_four _ _ _ _ _ (by rw [toByte_val]; omega) (by rw [toByte_val]; omega)
          (by rw [toByte_val, toByte_val]; omega) (by rw [toByte_val, toByte_val]; omega)
          (by rw [toByte_val]; omega) (by rw [toByte_val]; omega)]
        simp only [toByte_val]
        have : (240 + r / 262144) % 256 % 8 * 262144 + (128 + r / 4096 % 64) % 256 % 64 * 4096
            + (128 + r / 64 % 64) % 256 % 64 * 64 + (128 + r % 64) % 256 % 64 = r := by omega
        rw [this, hc]

theorem encodeRune_length_pos (c : Char) : 0 < (encodeRune c).length := by
  unfold encodeRune
  split
  · simp
  · split
    · simp
    · split <;> simp

theorem runesFrom_skip (xs rest : GoBytes) :
    runesFrom xs.length (xs ++ rest) = runesFrom 0 rest := by
  induction xs with
  | nil => rfl
  | cons x xs ih => simpa [runesFrom] using ih

theorem runes_encodeRune_append (c : Char) (rest : GoBytes) :
    runes (encodeRune c ++ rest) = c :: runes rest := by
  have hdec := decodeRune_encodeRune c rest
  have hpos := encodeRune_length_pos c
  cases he : encodeRune c with
  | nil =>
    rw [he] at hpos
    simp at hpos
  | cons b tail =>
    rw [he] at hdec
    unfold runes
    simp only [List.cons_append] at hdec ⊢
    simp only [runesFrom, hdec, List.length_cons, Nat.add_sub_cancel]
    rw [runesFrom_skip]

theorem encodeString_cons (c : Char) (rs : GoString) :
    encodeString (c :: rs) = encodeRune c ++ encodeString rs := by
  simp [encodeString]

theorem encodeString_append (xs ys : GoString) :
    encodeString (xs ++ ys) = encodeString xs ++ encodeString ys := by
  simp [encodeString]

theorem runes_encodeString_append (rs : GoString) (rest : GoBytes) :
    runes (encodeString rs ++ rest) = rs ++ runes rest := by
  induction rs with
  | nil => rfl
  | cons c cs ih =>
    rw [encodeString_cons, List.append_assoc, runes_encodeRune_append, ih]
    rfl

theorem runes_encodeString (rs : GoString) : runes (encodeString rs) = rs := by
  have h := runes_encodeString_append rs []
  simp only [List.append_nil] at h
  rw [h]
  simp [runes, runesFrom]

theorem encodeString_eq_nil (rs : GoString) : encodeString rs = [] ↔ rs = [] := by
  constructor
  · intro h
    cases rs with
    | nil => rfl
    | cons c cs =>
      rw [encodeString_cons] at h
      have hpos := encodeRune_length_pos c
      have hlen := congrArg List.length h
      simp only [List.length_append, List.length_nil] at hlen
      omega
  · intro h
    rw [h]
    rfl

end csv

/-! ## The split on bytes -/

namespace csv

theorem parseStepBytes_simulates (v : SplitVars) (c : Char) :
    parseStepBytes ⟨v.fields.map encodeString, encodeString v.field, v.inQuotes⟩ c
      = ⟨(parseStep v c).fields.map encodeString, encodeString (parseStep v c).field,
         (parseStep v c).inQuotes⟩ := by
  unfold parseStepBytes parseStep
  by_cases hc : c = quoteRune
  · simp [hc]
  · by_cases hb : (c = commaRune && !v.inQuotes) = true
    · simp only [hc, if_false, hb, if_true]
      simp [encodeString]
    · have hbf : (decide (c = commaRune) && !v.inQuotes) = false := by simpa using hb
      simp only [hc, if_false, hbf, Bool.false_eq_true]
      simp [encodeString]

theorem foldl_parseStepBytes_simulates (xs : GoString) (v : SplitVars) :
    xs.foldl parseStepBytes ⟨v.fields.map encodeString, encodeString v.field, v.inQuotes⟩
      = ⟨(xs.foldl parseStep v).fields.map encodeString,
         encodeString (xs.foldl parseStep v).field, (xs.foldl parseStep v).inQuotes⟩ := by
  induction xs generalizing v with
  | nil => rfl
  | cons c cs ih => rw [List.foldl_cons, List.foldl_cons, parseStepBytes_simulates, ih]

/-- The split on bytes is the split on the runes `range` yields, each field encoded. -/
theorem parseFieldsBytes_eq (line : GoBytes) :
    parseFieldsBytes line = (parseFields (runes line)).map encodeString := by
  unfold parseFieldsBytes parseFields
  have h := foldl_parseStepBytes_simulates (runes line) ⟨[], [], false⟩
  have h0 : (⟨[], [], false⟩ : SplitVarsBytes)
      = ⟨([] : List GoString).map encodeString, encodeString [], false⟩ := rfl
  rw [h0, h]
  simp only
  cases hf : ((runes line).foldl parseStep ⟨[], [], false⟩).field with
  | nil => simp [encodeString]
  | cons a t =>
    have hne : encodeString (a :: t) ≠ [] := by
      intro h1
      have := (encodeString_eq_nil (a :: t)).1 h1
      simp at this
    have hpos : 0 < (encodeString (a :: t)).length := List.length_pos.2 hne
    simp [hpos]

theorem encodeRune_quoteRune : encodeRune quoteRune = [quoteByte] := by decide

theorem encodeRune_commaRune : encodeRune commaRune = [commaByte] := by decide

theorem mem_encodeString {c : Char} {rs : GoString} (hc : c ∈ rs) {b : Fin 256}
    (hb : b ∈ encodeRune c) : b ∈ encodeString rs := by
  unfold encodeString
  rw [List.mem_flatten]
  exact ⟨encodeRune c, List.mem_map.2 ⟨c, hc, rfl⟩, hb⟩

theorem runes_ne_quoteRune (a : GoBytes) (hv : validUTF8 a) (h : ∀ x ∈ a, x ≠ quoteByte) :
    ∀ c ∈ runes a, c ≠ quoteRune := by
  intro c hc hq
  subst hq
  have hmem : quoteByte ∈ encodeString (runes a) :=
    mem_encodeString hc (by rw [encodeRune_quoteRune]; simp)
  rw [hv] at hmem
  exact h _ hmem rfl

theorem runes_ne_commaRune (a : GoBytes) (hv : validUTF8 a) (h : ∀ x ∈ a, x ≠ commaByte) :
    ∀ c ∈ runes a, c ≠ commaRune := by
  intro c hc hq
  subst hq
  have hmem : commaByte ∈ encodeString (runes a) :=
    mem_encodeString hc (by rw [encodeRune_commaRune]; simp)
  rw [hv] at hmem
  exact h _ hmem rfl

theorem runes_ne_nil (a : GoBytes) (hv : validUTF8 a) (hne : a ≠ []) : runes a ≠ [] := by
  intro h
  unfold validUTF8 at hv
  rw [h] at hv
  exact hne hv.symm

set_option maxRecDepth 8192

/-- C4, counterexample: with `a` the single byte 0xFF (no quote, no comma), `b` empty and
`d` the letter `d`, the first field is not `a` but the three bytes EF BF BD of U+FFFD. -/
theorem C4_counterexample :
    ¬ (∀ a b d : GoBytes,
        (∀ x ∈ a, x ≠ quoteByte ∧ x ≠ commaByte) → (∀ x ∈ b, x ≠ quoteByte) →
        (∀ x ∈ d, x ≠ quoteByte ∧ x ≠ commaByte) → d ≠ [] →
        parseFieldsBytes (a ++ [commaByte, quoteByte] ++ b ++ [quoteByte, commaByte] ++ d)
          = [a, b, d]) := by
  intro h
  have h1 := h [toByte 0xFF] [] [toByte 0x64] (by decide) (by decide) (by decide) (by decide)
  revert h1
  decide

/-- C4, amended: a quoted comma does not split and the quotes are stripped: for strings `a`,
`b`, `d` that are valid UTF-8 and contain no quote character, `a` and `d` containing no
comma and `d` non-empty, the line made of `a`, a comma, `b` in quotes, a comma and `d`
splits into exactly the three fields `[a, b, d]`, byte for byte. -/
theorem C4_quoted_commas_utf8 (a b d : GoBytes)
    (hva : validUTF8 a) (hvb : validUTF8 b) (hvd : validUTF8 d)
    (ha : ∀ x ∈ a, x ≠ quoteByte ∧ x ≠ commaByte)
    (hb : ∀ x ∈ b, x ≠ quoteByte)
    (hd : ∀ x ∈ d, x ≠ quoteByte ∧ x ≠ commaByte)
    (hne : d ≠ []) :
    parseFieldsBytes (a ++ [commaByte, quoteByte] ++ b ++ [quoteByte, commaByte] ++ d)
      = [a, b, d] := by
  have hline : a ++ [commaByte, quoteByte] ++ b ++ [quoteByte, commaByte] ++ d
      = encodeString (runes a ++ [commaRune, quoteRune] ++ runes b
          ++ [quoteRune, commaRune] ++ runes d) := by
    have e1 : encodeString [commaRune, quoteRune] = [commaByte, quoteByte] := by decide
    have e2 : encodeString [quoteRune, commaRune] = [quoteByte, commaByte] := by decide
    unfold validUTF8 at hva hvb hvd
    simp only [encodeString_append, e1, e2, hva, hvb, hvd]
  rw [hline, parseFieldsBytes_eq, runes_encodeString]
  rw [parseFields_quoted_commas (runes a) (runes b) (runes d)
    (fun c hc => ⟨runes_ne_quoteRune a hva (fun x hx => (ha x hx).1) c hc,
      runes_ne_commaRune a hva (fun x hx => (ha x hx).2) c hc⟩)
    (runes_ne_quoteRune b hvb hb)
    (fun c hc => ⟨runes_ne_quoteRune d hvd (fun x hx => (hd x hx).1) c hc,
      runes_ne_commaRune d hvd (fun x hx => (hd x hx).2) c hc⟩)
    (runes_ne_nil d hvd hne)]
  unfold validUTF8 at hva hvb hvd
  simp only [List.map_cons, List.map_nil, hva, hvb, hvd]

theorem C4_quoted_commas_utf8_witness :
    parseFieldsBytes (encodeString "é".toList ++ [commaByte, quoteByte]
        ++ encodeString "b,c".toList ++ [quoteByte, commaByte] ++ encodeString "d".toList)
      = [encodeString "é".toList, encodeString "b,c".toList, encodeString "d".toList] ∧
    parseFieldsBytes (encodeString "a,\"b,c\",d".toList)
      = [encodeString "a".toList, encodeString "b,c".toList, encodeString "d".toList] :=
  ⟨C4_quoted_commas_utf8 (encodeString "é".toList) (encodeString "b,c".toList)
      (encodeString "d".toList) (by decide) (by decide) (by decide) (by decide) (by decide)
      (by decide) (by decide),
   by decide⟩

end csv

namespace csv

theorem joinCommaBytes_cons_of_ne_nil (f : GoBytes) (rest : List GoBytes) (h : rest ≠ []) :
    joinCommaBytes (f :: rest) = f ++ commaByte :: joinCommaBytes rest := by
  cases rest with
  | nil => exact absurd rfl h
  | cons g gs => simp [joinCommaBytes, List.intercalate, List.intersperse]

theorem encodeString_joinComma (rfs : List GoString) :
    encodeString (joinComma rfs) = joinCommaBytes (rfs.map encodeString) := by
  induction rfs with
  | nil => rfl
  | cons f rest ih =>
    cases rest with
    | nil => simp [joinComma, joinCommaBytes, List.intercalate]
    | cons g gs =>
      rw [joinComma_cons_of_ne_nil f (g :: gs) (by simp), List.map_cons,
        joinCommaBytes_cons_of_ne_nil _ _ (by simp), ← ih, encodeString_append,
        encodeString_cons, encodeRune_commaRune]
      rfl

theorem map_encodeString_runes (fs : List GoBytes) (h : ∀ f ∈ fs, validUTF8 f) :
    (fs.map runes).map encodeString = fs := by
  induction fs with
  | nil => rfl
  | cons f rest ih =>
    have hf : encodeString (runes f) = f := h f (List.mem_cons_self _ _)
    simp only [List.map_cons, hf]
    rw [ih fun g hg => h g (List.mem_cons_of_mem _ hg)]

set_option maxRecDepth 16384

/-- C5, counterexample: the record whose only field is the single byte 0xFF (non-empty, no
comma, no quote) does not come back: the split yields the three bytes EF BF BD of U+FFFD. -/
theorem C5_counterexample :
    ¬ (∀ fs : List GoBytes, fs ≠ [] →
        (∀ f ∈ fs, f ≠ [] ∧ ∀ x ∈ f, x ≠ quoteByte ∧ x ≠ commaByte) →
        parseFieldsBytes (joinCommaBytes fs) = fs) := by
  intro h
  have h1 := h [[toByte 0xFF]] (by decide) (by decide)
  revert h1
  decide

/-- C5, amended: round trip of plain records: for every non-empty list of non-empty strings
that are valid UTF-8 and contain neither a comma nor a quote character, splitting the line
obtained by joining them with single commas yields exactly that list, in the same order,
byte for byte. -/
theorem C5_round_trip_utf8 (fs : List GoBytes) (hne : fs ≠ [])
    (hfs : ∀ f ∈ fs, validUTF8 f ∧ f ≠ [] ∧ ∀ x ∈ f, x ≠ quoteByte ∧ x ≠ commaByte) :
    parseFieldsBytes (joinCommaBytes fs) = fs := by
  have hmap := map_encodeString_runes fs fun f hf => (hfs f hf).1
  have hjoin : joinCommaBytes fs = encodeString (joinComma (fs.map runes)) := by
    rw [encodeString_joinComma, hmap]
  have hrunes : ∀ r ∈ fs.map runes, r ≠ [] ∧ ∀ c ∈ r, c ≠ quoteRune ∧ c ≠ commaRune := by
    intro r hr
    obtain ⟨f, hf, rfl⟩ := List.mem_map.1 hr
    obtain ⟨hv, hn, hx⟩ := hfs f hf
    exact ⟨runes_ne_nil f hv hn, fun c hc =>
      ⟨runes_ne_quoteRune f hv (fun x hx1 => (hx x hx1).1) c hc,
       runes_ne_commaRune f hv (fun x hx1 => (hx x hx1).2) c hc⟩⟩
  rw [hjoin, parseFieldsBytes_eq, runes_encodeString,
    parseFields_joinComma (fs.map runes) (by simpa using hne) hrunes]
  exact hmap

theorem C5_round_trip_utf8_witness :
    parseFieldsBytes (encodeString "a,b,c".toList)
      = [encodeString "a".toList, encodeString "b".toList, encodeString "c".toList] ∧
    parseFieldsBytes (joinCommaBytes [encodeString "é".toList, encodeString "€".toList])
      = [encodeString "é".toList, encodeString "€".toList] :=
  ⟨C5_round_trip_utf8
      [encodeString "a".toList, encodeString "b".toList, encodeString "c".toList]
      (by decide) (by decide),
   C5_round_trip_utf8 [encodeString "é".toList, encodeString "€".toList]
      (by decide) (by decide)⟩

end csv

namespace csv

set_option maxRecDepth 16384

/-- A byte below 0x80 occurs in the encoding of a rune only as the encoding of that very
rune: the bytes of longer encodings are all 0x80 or above. -/
theorem encodeRune_ascii (c : Char) (b : Fin 256) (hb : b ∈ encodeRune c)
    (hlt : b.val < 0x80) : c.toNat = b.val := by
  unfold encodeRune at hb
  by_cases h1 : c.toNat ≤ 0x7F
  · rw [if_pos h1] at hb
    rw [List.mem_singleton.1 hb, toByte_val]
    omega
  · rw [if_neg h1] at hb
    exfalso
    by_cases h2 : c.toNat ≤ 0x7FF
    · rw [if_pos h2] at hb
      simp only [List.mem_cons, List.mem_singleton, List.not_mem_nil, or_false] at hb
      rcases hb with h | h <;> (rw [h, toByte_val] at hlt; omega)
    · rw [if_neg h2] at hb
      by_cases h3 : c.toNat ≤ 0xFFFF
      · rw [if_pos h3] at hb
        simp only [List.mem_cons, List.mem_singleton, List.not_mem_nil, or_false] at hb
        rcases hb with h | h | h <;> (rw [h, toByte_val] at hlt; omega)
      · rw [if_neg h3] at hb
        have hr := char_range c
        simp only [List.mem_cons, List.mem_singleton, List.not_mem_nil, or_false] at hb
        rcases hb with h | h | h | h <;> (rw [h, toByte_val] at hlt; omega)

theorem not_mem_encodeRune_quoteByte (c : Char) (hc : c ≠ quoteRune) :
    ∀ x ∈ encodeRune c, x ≠ quoteByte := by
  intro x hx hq
  subst hq
  have h := encodeRune_ascii c quoteByte hx (by decide)
  apply hc
  rw [← Char.ofNat_toNat c, h]
  rfl

theorem not_mem_encodeRune_commaByte (c : Char) (hc : c ≠ commaRune) :
    ∀ x ∈ encodeRune c, x ≠ commaByte := by
  intro x hx hq
  subst hq
  have h := encodeRune_ascii c commaByte hx (by decide)
  apply hc
  rw [← Char.ofNat_toNat c, h]
  rfl

theorem readStatesBytes_plain (q : Bool) (xs rest : GoBytes) (h : ∀ x ∈ xs, x ≠ quoteByte) :
    readStatesBytes q (xs ++ rest) = (xs.map fun x => (x, q)) ++ readStatesBytes q rest := by
  induction xs with
  | nil => rfl
  | cons x xs ih =>
    have hx : x ≠ quoteByte := h x (List.mem_cons_self _ _)
    rw [List.cons_append, readStatesBytes, if_neg hx,
      ih fun y hy => h y (List.mem_cons_of_mem _ hy)]
    rfl

theorem quoteByte_ne_commaByte : quoteByte ≠ commaByte := by decide

theorem encodeString_flatten (fs : List GoString) :
    encodeString fs.flatten = (fs.map encodeString).flatten := by
  induction fs with
  | nil => rfl
  | cons f rest ih => simp [encodeString_append, ih]

/-- Removing quotes and unquoted commas from the bytes of encoded runes is removing them from
the runes and encoding what is left. -/
theorem filter_readStatesBytes_encodeString (q : Bool) (rs : GoString) :
    ((readStatesBytes q (encodeString rs)).filter fun x =>
        !(x.1 = quoteByte) && !(x.1 = commaByte && !x.2)).map Prod.fst
      = encodeString (((readStates q rs).filter fun x =>
          !(x.1 = quoteRune) && !isUnquotedComma x).map Prod.fst) := by
  generalize hPB : (fun x : Fin 256 × Bool =>
    !(decide (x.1 = quoteByte)) && !(decide (x.1 = commaByte) && !x.2)) = PB
  generalize hPR : (fun x : Char × Bool =>
    !(decide (x.1 = quoteRune)) && !isUnquotedComma x) = PR
  induction rs generalizing q with
  | nil => rfl
  | cons c cs ih =>
    rw [encodeString_cons]
    by_cases hc : c = quoteRune
    · subst hc
      have b1 : PB (quoteByte, q) = false := by rw [← hPB]; simp
      have r1 : PR (quoteRune, q) = false := by rw [← hPR]; simp
      rw [encodeRune_quoteRune, List.singleton_append, readStatesBytes, if_pos rfl,
        List.filter_cons_of_neg (by simp [b1]), readStates, if_pos rfl,
        List.filter_cons_of_neg (by simp [r1]), ih]
    · by_cases h2 : c = commaRune
      · subst h2
        rw [encodeRune_commaRune, List.singleton_append, readStatesBytes,
          if_neg quoteByte_ne_commaByte.symm, readStates, if_neg hc]
        cases q with
        | false =>
          have b1 : PB (commaByte, false) = false := by
            rw [← hPB]; simp
          have r1 : PR (commaRune, false) = false := by
            rw [← hPR]; simp [isUnquotedComma]
          rw [List.filter_cons_of_neg (by simp [b1]), List.filter_cons_of_neg (by simp [r1]),
            ih]
        | true =>
          have b1 : PB (commaByte, true) = true := by
            rw [← hPB]; simp [quoteByte_ne_commaByte.symm]
          have r1 : PR (commaRune, true) = true := by
            rw [← hPR]; simp [isUnquotedComma, quoteRune_ne_commaRune.symm]
          rw [List.filter_cons_of_pos b1, List.filter_cons_of_pos r1, List.map_cons,
            List.map_cons, ih, encodeString_cons, encodeRune_commaRune]
          rfl
      · have hq := not_mem_encodeRune_quoteByte c hc
        have hm := not_mem_encodeRune_commaByte c h2
        have r1 : PR (c, q) = true := by
          rw [← hPR]; simp [isUnquotedComma, hc, h2]
        rw [readStatesBytes_plain q _ _ hq, List.filter_append, List.map_append, ih,
          readStates, if_neg hc, List.filter_cons_of_pos r1, List.map_cons, encodeString_cons]
        have hkeep : ((encodeRune c).map fun x => (x, q)).filter PB
              = (encodeRune c).map fun x => (x, q) := by
          rw [List.filter_eq_self]
          intro y hy
          obtain ⟨x, hx, rfl⟩ := List.mem_map.1 hy
          rw [← hPB]
          simp [hq x hx, hm x hx]
        rw [hkeep, List.map_map]
        have hid : (Prod.fst ∘ fun x : Fin 256 => (x, q)) = id := rfl
        rw [hid, List.map_id]

/-- C16, counterexample: for the line made of the single byte 0xFF there is no quote and no
comma to remove, yet the concatenated fields are the three bytes EF BF BD, not the line. -/
theorem C16_counterexample :
    ¬ (∀ line : GoBytes,
        (parseFieldsBytes line).flatten = withoutQuotesAndUnquotedCommasBytes line) := by
  intro h
  have h1 := h [toByte 0xFF]
  revert h1
  decide

/-- C16, amended: content preservation: for every line that is valid UTF-8, concatenating
the fields `parseFields` produces, in order, gives exactly the line with every quote
character and every unquoted comma removed, byte for byte; no other character is dropped,
added, duplicated or reordered, and quoted commas are kept.  For every line, valid or not,
the concatenated fields are the encoding of the runes `range` yields, less quote runes and
unquoted commas. -/
theorem C16_content_preserved_utf8 (line : GoBytes) (hv : validUTF8 line) :
    (parseFieldsBytes line).flatten = withoutQuotesAndUnquotedCommasBytes line ∧
    (∀ any : GoBytes, (parseFieldsBytes any).flatten
      = encodeString (withoutQuotesAndUnquotedCommas (runes any))) := by
  have hall : ∀ any : GoBytes, (parseFieldsBytes any).flatten
      = encodeString (withoutQuotesAndUnquotedCommas (runes any)) := by
    intro any
    rw [parseFieldsBytes_eq, ← (parseFields_flatten (runes any)).1, encodeString_flatten]
  refine ⟨?_, hall⟩
  rw [hall line]
  unfold withoutQuotesAndUnquotedCommasBytes withoutQuotesAndUnquotedCommas
  rw [← filter_readStatesBytes_encodeString false (runes line)]
  unfold validUTF8 at hv
  rw [hv]

theorem C16_content_preserved_utf8_witness :
    (parseFieldsBytes (encodeString "é,\"b,c\",d".toList)).flatten
        = encodeString "éb,cd".toList ∧
    withoutQuotesAndUnquotedCommasBytes (encodeString "é,\"b,c\",d".toList)
        = encodeString "éb,cd".toList :=
  have h := (C16_content_preserved_utf8 (encodeString "é,\"b,c\",d".toList) (by decide)).1
  ⟨h.trans (by decide), by decide⟩

end csv
